import Mathlib

/-!
Shallow embedding of the core of the `minecraft-installer` repository
(launcher detection, mrpack installation, and the mod-update engine),
together with theorems checking the natural-language specification
against the embedded code.

Strings are modelled as `List Char` at the algorithmic level, with thin
`String` wrappers.  Rust's `str::replace(pat, "")` (a single left-to-right
non-overlapping scan) is embedded as a direct recursive scan for each of
the two concrete patterns the source uses (`".jar"` and `".disabled"`).
-/

namespace MCI

/-- One left-to-right non-overlapping scan removing every occurrence of
`".jar"`, embedding `str::replace(".jar", "")` from
`updater.rs::normalize_mod_name`. -/
def stripJar : List Char → List Char
  | '.' :: 'j' :: 'a' :: 'r' :: rest => stripJar rest
  | c :: rest => c :: stripJar rest
  | [] => []

/-- One left-to-right non-overlapping scan removing every occurrence of
`".disabled"`, embedding `str::replace(".disabled", "")`. -/
def stripDisabled : List Char → List Char
  | '.' :: 'd' :: 'i' :: 's' :: 'a' :: 'b' :: 'l' :: 'e' :: 'd' :: rest => stripDisabled rest
  | c :: rest => c :: stripDisabled rest
  | [] => []

/-- Does `".jar"` occur as a substring? -/
def hasJarSub : List Char → Bool
  | '.' :: 'j' :: 'a' :: 'r' :: _ => true
  | _ :: rest => hasJarSub rest
  | [] => false

/-- Does `".disabled"` occur as a substring? -/
def hasDisabledSub : List Char → Bool
  | '.' :: 'd' :: 'i' :: 's' :: 'a' :: 'b' :: 'l' :: 'e' :: 'd' :: _ => true
  | _ :: rest => hasDisabledSub rest
  | [] => false

/-- Does `"Offline"` occur as a substring?  Embeds
`accounts_content.contains("Offline")` from `detect_launcher_type`. -/
def hasOffline : List Char → Bool
  | 'O' :: 'f' :: 'f' :: 'l' :: 'i' :: 'n' :: 'e' :: _ => true
  | _ :: rest => hasOffline rest
  | [] => false

/-- `str::split('-')`: split into the (always nonempty) list of
`'-'`-separated components. -/
def splitDash : List Char → List (List Char)
  | [] => [[]]
  | c :: cs =>
    if c = '-' then [] :: splitDash cs
    else
      match splitDash cs with
      | [] => [[c]]
      | p :: ps => (c :: p) :: ps

/-- `str::split('$')`. -/
def splitDollar : List Char → List (List Char)
  | [] => [[]]
  | c :: cs =>
    if c = '$' then [] :: splitDollar cs
    else
      match splitDollar cs with
      | [] => [[c]]
      | p :: ps => (c :: p) :: ps

/-- Split on an arbitrary separator character (the same splitting used
for `'/'` in path handling and `'.'` in extension handling). -/
def splitChar (sep : Char) : List Char → List (List Char)
  | [] => [[]]
  | c :: cs =>
    if c = sep then [] :: splitChar sep cs
    else
      match splitChar sep cs with
      | [] => [[c]]
      | p :: ps => (c :: p) :: ps

/-- `str::starts_with`, by character list. -/
def strStartsWith (pat s : String) : Bool :=
  pat.toList.isPrefixOf s.toList

/-- Stage 1 of `updater.rs::normalize_mod_name`:
`name.to_lowercase().replace(".jar", "").replace(".disabled", "")`. -/
def lowerStrip (s : List Char) : List Char :=
  stripDisabled (stripJar (s.map Char.toLower))

/-- Stage 2 of `normalize_mod_name`: if the name contains `'$'`, keep the
part before the first `'$'` (`name.split('$').next().unwrap_or(&name)`). -/
def dollarCut (s1 : List Char) : List Char :=
  if s1.contains '$' then (splitDollar s1).headD s1 else s1

/-- Stage 3 of `normalize_mod_name`: split on `'-'`; return the first part,
or the first two parts joined by `'-'` when a second part exists whose
first character (defaulting to `'0'`) is not an ASCII digit. -/
def dashPick (s2 : List Char) : List Char :=
  let parts := splitDash s2
  if parts = [] then s2
  else
    match parts with
    | [] => s2
    | [p0] => p0
    | p0 :: p1 :: _ =>
      if ¬ (p1.headD '0').isDigit then p0 ++ '-' :: p1 else p0

/-- Embedding of `updater.rs::normalize_mod_name` (lines 397-430). -/
def normalizeModName (s : List Char) : List Char :=
  dashPick (dollarCut (lowerStrip s))

/-- `normalize_mod_name` on `String`s. -/
def normalizeS (s : String) : String :=
  String.mk (normalizeModName s.toList)

/-- Closed taxonomy of launcher families (`launcher_support.rs` lines
29-41). -/
inductive LauncherType where
  | official
  | prism
  | prismCracked
  | xmcl
  | astralRinth
  | modrinthApp
  | multiMC
  | atLauncher
  | technic
  | other
  | unknown
deriving DecidableEq, Repr

/-- The filesystem facts about a candidate directory that
`detect_launcher_type` consults: existence of the directory itself, of
its marker files and subdirectories, its basename, and the readable
content of `accounts.json` (`none` models an unreadable or absent
file). -/
structure DirState where
  present : Bool
  hasAppWindowState : Bool
  hasProfilesDir : Bool
  baseName : String
  hasPrismCfg : Bool
  hasInstancesDir : Bool
  accountsJson : Option String
  hasLauncherProfiles : Bool
  hasVersionsDir : Bool
  hasMultiMCCfg : Bool
  hasConfigsDir : Bool
  hasServersDir : Bool
deriving DecidableEq, Repr

/-- `accounts.json` is readable and contains the substring `"Offline"`. -/
def accountsOffline (d : DirState) : Bool :=
  match d.accountsJson with
  | some content => hasOffline content.toList
  | none => false

/-- Embedding of `launcher_support.rs::detect_launcher_type` (lines
146-194): the nested first-match-wins marker checks. -/
def detectLauncherType (d : DirState) : LauncherType :=
  if ¬ d.present then .unknown
  else if d.hasAppWindowState ∧ d.hasProfilesDir ∧ d.baseName = "ModrinthApp" then .modrinthApp
  else if d.hasAppWindowState ∧ d.hasProfilesDir then .astralRinth
  else if d.hasPrismCfg ∧ d.hasInstancesDir then
    (if accountsOffline d then .prismCracked else .prism)
  else if d.hasInstancesDir ∧ d.hasLauncherProfiles then .xmcl
  else if d.hasLauncherProfiles ∧ (d.hasVersionsDir ∨ d.baseName = ".minecraft") then .official
  else if d.hasMultiMCCfg ∧ d.hasInstancesDir then .multiMC
  else if d.hasConfigsDir ∧ d.hasInstancesDir ∧ d.hasServersDir then .atLauncher
  else .unknown

/-- The seven positive §4.5 classification rules, in the spec's stated
order; each yields `some kind` when its marker set matches. -/
def specRules : List (DirState → Option LauncherType) :=
  [fun d => if d.hasAppWindowState ∧ d.hasProfilesDir ∧ d.baseName = "ModrinthApp" then
      some .modrinthApp else none,
   fun d => if d.hasAppWindowState ∧ d.hasProfilesDir then some .astralRinth else none,
   fun d => if d.hasPrismCfg ∧ d.hasInstancesDir then
      some (if accountsOffline d then .prismCracked else .prism) else none,
   fun d => if d.hasInstancesDir ∧ d.hasLauncherProfiles then some .xmcl else none,
   fun d => if d.hasLauncherProfiles ∧ (d.hasVersionsDir ∨ d.baseName = ".minecraft") then
      some .official else none,
   fun d => if d.hasMultiMCCfg ∧ d.hasInstancesDir then some .multiMC else none,
   fun d => if d.hasConfigsDir ∧ d.hasInstancesDir ∧ d.hasServersDir then
      some .atLauncher else none]

/-- First-match-wins evaluation of an ordered rule list. -/
def firstMatch (rules : List (DirState → Option LauncherType)) (d : DirState) :
    LauncherType :=
  match rules with
  | [] => .unknown
  | r :: rest =>
    match r d with
    | some t => t
    | none => firstMatch rest d

/-- §4.5 spec-side classifier: the rules evaluated in the stated order,
first match wins, `Unknown` otherwise. -/
def specClassify (d : DirState) : LauncherType :=
  if ¬ d.present then .unknown else firstMatch specRules d

/-- A concrete Prism-style directory: `prismlauncher.cfg`, `instances/`,
and an `accounts.json` mentioning an Offline account. -/
def prismCrackedDir : DirState :=
  { present := true
    hasAppWindowState := false
    hasProfilesDir := false
    baseName := "PrismLauncher-Cracked"
    hasPrismCfg := true
    hasInstancesDir := true
    accountsJson := some "accounts: type Offline uuid 1234"
    hasLauncherProfiles := false
    hasVersionsDir := false
    hasMultiMCCfg := false
    hasConfigsDir := false
    hasServersDir := false }

/-! Mrpack data model (`launcher_support.rs` lines 43-71). -/

/-- Downloaded bytes, abstracted as a list of byte values. -/
abbrev ByteSeq := List Nat

/-- `MrpackEnv` (lines 67-71). -/
structure MrpackEnv where
  client : String
  server : String
deriving DecidableEq, Repr

/-- `MrpackFile` (lines 57-65). -/
structure MrpackFile where
  path : String
  hashes : List (String × String)
  env : Option MrpackEnv
  downloads : List String
  fileSize : Nat
deriving DecidableEq, Repr

/-- `MrpackIndex` (lines 44-55).  `dependencies` models the JSON map as an
association list. -/
structure MrpackIndex where
  formatVersion : Nat
  game : String
  versionId : String
  name : String
  summary : Option String
  files : List MrpackFile
  dependencies : List (String × String)
deriving DecidableEq, Repr

/-- One entry of the opened `.mrpack` ZIP archive. -/
structure ZipEntry where
  name : String
  isDir : Bool
  content : ByteSeq
deriving DecidableEq, Repr

/-- An opened `.mrpack` archive: the parse result of
`modrinth.index.json` (`none` models a missing or unparsable index) and
the list of ZIP entries. -/
structure Archive where
  indexJson : Option MrpackIndex
  entries : List ZipEntry
deriving DecidableEq, Repr

/-- Unix `Path::join`: appending a relative path, with an absolute right
operand replacing the base entirely. -/
def joinPath (base rel : String) : String :=
  if strStartsWith "/" rel then rel else base ++ "/" ++ rel

/-- Path segments as character lists (empty segments dropped). -/
def segsOf (p : String) : List (List Char) :=
  (splitChar '/' p.toList).filter (fun s => s ≠ [])

/-- Lexical resolution of `"."` and `".."` segments. -/
def resolveSegs (segs : List (List Char)) : List (List Char) :=
  segs.foldl
    (fun acc s =>
      if s = ['.', '.'] then acc.dropLast else if s = ['.'] then acc else acc ++ [s])
    []

/-- Does the lexically resolved `p` stay inside the directory `root`? -/
def staysWithin (root p : String) : Bool :=
  (resolveSegs (segsOf root)).isPrefixOf (resolveSegs (segsOf p))

/-- The override writes performed by `install_mrpack` (lines 899-920):
every non-directory entry under `overrides/` is streamed to the
instance directory joined with the entry name minus the 10-character
`"overrides/"` marker, with no validation of the remaining path. -/
def overrideWrites (instanceDir : String) (entries : List ZipEntry) :
    List (String × ByteSeq) :=
  entries.filterMap (fun e =>
    if strStartsWith "overrides/" e.name && !e.isDir then
      some (joinPath instanceDir (String.mk (e.name.toList.drop 10)), e.content)
    else none)

/-- `env.client == "unsupported"` (lines 929-933). -/
def clientUnsupported (f : MrpackFile) : Bool :=
  match f.env with
  | some e => e.client == "unsupported"
  | none => false

/-- The mirror loop of `install_mrpack` (lines 942-977): try each URL of
`downloads` in order; a fetch failure (transport error or non-2xx
status, modelled as `none`) or a SHA-1 mismatch against the expected
`"sha1"` hash moves on to the next URL. -/
def tryMirrors (fetch : String → Option ByteSeq) (sha1hex : ByteSeq → String)
    (expected : Option String) : List String → Option ByteSeq
  | [] => none
  | url :: rest =>
    match fetch url with
    | some bytes =>
      match expected with
      | some h =>
        if sha1hex bytes = h then some bytes
        else tryMirrors fetch sha1hex expected rest
      | none => some bytes
    | none => tryMirrors fetch sha1hex expected rest

/-- Spec-side acceptance test for one fetched mirror response. -/
def hashOk (sha1hex : ByteSeq → String) (expected : Option String) (b : ByteSeq) : Bool :=
  match expected with
  | some h => sha1hex b = h
  | none => true

/-- Errors surfaced by the embedded `install_mrpack`. -/
inductive InstallError where
  | badIndex
  | downloadFailed (path : String)
  | missingMinecraft
deriving DecidableEq, Repr

/-- The download phase of `install_mrpack` (lines 927-984): files in
`index.files` order; an `env.client == "unsupported"` file is skipped;
otherwise the mirrors are tried and exhaustion is fatal
(`DownloadFailed`).  Returns the performed writes in order. -/
def downloadFiles (fetch : String → Option ByteSeq) (sha1hex : ByteSeq → String)
    (instanceDir : String) : List MrpackFile → Except InstallError (List (String × ByteSeq))
  | [] => .ok []
  | f :: rest =>
    if clientUnsupported f then downloadFiles fetch sha1hex instanceDir rest
    else
      match tryMirrors fetch sha1hex (f.hashes.lookup "sha1") f.downloads with
      | some b =>
        match downloadFiles fetch sha1hex instanceDir rest with
        | .ok ws => .ok ((joinPath instanceDir f.path, b) :: ws)
        | .error e => .error e
      | none => .error (.downloadFailed f.path)

/-- Loader inference from `dependencies` (lines 992-1002). -/
def loaderOf (deps : List (String × String)) : String :=
  if (deps.lookup "fabric-loader").isSome then "fabric"
  else if (deps.lookup "forge").isSome then "forge"
  else if (deps.lookup "quilt-loader").isSome then "quilt"
  else if (deps.lookup "neoforge").isSome then "neoforge"
  else "vanilla"

/-- Embedding of `launcher_support.rs::install_mrpack` (lines 869-1006):
parse the index, write the overrides, download every file, then read the
`minecraft` dependency (absence is fatal) and infer the loader.  The
parsed `format_version` is never inspected, and no entry name or file
path is validated.  Returns the performed writes and the
`(minecraft_version, loader)` pair. -/
def installMrpack (fetch : String → Option ByteSeq) (sha1hex : ByteSeq → String)
    (archive : Archive) (instanceDir : String) :
    Except InstallError (List (String × ByteSeq) × String × String) :=
  match archive.indexJson with
  | none => .error .badIndex
  | some index =>
    let ow := overrideWrites instanceDir archive.entries
    match downloadFiles fetch sha1hex instanceDir index.files with
    | .error e => .error e
    | .ok dw =>
      match index.dependencies.lookup "minecraft" with
      | none => .error .missingMinecraft
      | some mcv => .ok (ow ++ dw, mcv, loaderOf index.dependencies)

/-- Replace the parsed `format_version` of an archive's index. -/
def withFormatVersion (v : Nat) (a : Archive) : Archive :=
  { a with indexJson := a.indexJson.map (fun i => { i with formatVersion := v }) }

/-! Update engine data model (`updater.rs`). -/

/-- `updater.rs::ModInfo` (lines 28-36). -/
structure ModInfo where
  name : String
  filename : String
  version : Option String
  modId : Option String
  isUserMod : Bool
  fileSize : Nat
  lastModified : String
deriving DecidableEq, Repr

/-- `updater.rs::UpdateResult` (lines 49-57). -/
structure UpdateResult where
  instanceName : String
  success : Bool
  updatedMods : List String
  newMods : List String
  preservedMods : List String
  errors : List String
  message : String
deriving DecidableEq, Repr

/-- One directory entry of a mods directory: on-disk filename, file size
and modification time. -/
structure DirEntry where
  filename : String
  size : Nat
  mtime : Nat
deriving DecidableEq, Repr

/-- Rust's `Path::extension() == Some("jar")`: the part after the last
`'.'` is `"jar"` (a lone leading dot, as in `".jar"`, yields no
extension). -/
def isJarName (s : String) : Bool :=
  match splitChar '.' s.toList with
  | [] => false
  | [_] => false
  | p :: rest => !(p == [] && rest.length == 1) && rest.getLastD [] == "jar".toList

/-- `HashMap::insert`: replace the binding of `k` if present, else append. -/
def insertR (k : String) (v : ModInfo) : List (String × ModInfo) → List (String × ModInfo)
  | [] => [(k, v)]
  | (k', v') :: rest => if k' = k then (k, v) :: rest else (k', v') :: insertR k v rest

/-- The `ModInfo` built by `analyze_existing_mods_simple` (lines 1046-1054)
for one directory entry. -/
def modInfoOf (e : DirEntry) : ModInfo :=
  { name := normalizeS e.filename
    filename := e.filename
    version := none
    modId := none
    isUserMod := false
    fileSize := e.size
    lastModified := toString e.mtime }

/-- Embedding of `updater.rs::analyze_existing_mods_simple` (lines
1031-1062): fold over the directory entries, inserting every `.jar` file
into a map keyed by its normalized name (a later same-key file replaces
an earlier one, as `HashMap::insert` does). -/
def analyzeExistingMods (entries : List DirEntry) : List (String × ModInfo) :=
  entries.foldl
    (fun m e => if isJarName e.filename then insertR (normalizeS e.filename) (modInfoOf e) m else m)
    []

/-- The filenames visible in the inventory produced by
`analyze_existing_mods_simple`. -/
def inventoryFilenames (entries : List DirEntry) : List String :=
  (analyzeExistingMods entries).map (fun p => p.2.filename)

/-- `Path::new(p).file_name()`: the last `'/'`-separated component. -/
def basenameOf (p : String) : String :=
  String.mk ((splitChar '/' p.toList).getLastD p.toList)

/-- Does the mrpack file live under `mods/`? -/
def isModsPath (f : MrpackFile) : Bool :=
  strStartsWith "mods/" f.path

/-- The normalized key contributed by one mrpack file to
`modpack_mod_names` (lines 1100-1110), when it is a mods file. -/
def modKeyOf (f : MrpackFile) : Option String :=
  if isModsPath f then some (normalizeS (basenameOf f.path)) else none

/-- `modpack_mod_names` (lines 1100-1110) as a list of keys. -/
def modpackModNames (files : List MrpackFile) : List String :=
  files.filterMap modKeyOf

/-- Embedding of `updater.rs::download_mod_file` (lines 1262-1283): error
when `downloads` is empty, otherwise a single GET of the first URL;
non-success is an error; the body is written with no hash check and no
fallback to later URLs. -/
def downloadModFile (fetch : String → Option ByteSeq) (f : MrpackFile) :
    Except String ByteSeq :=
  match f.downloads with
  | [] => .error "No download URLs available for mod"
  | url :: _ =>
    match fetch url with
    | some bytes => .ok bytes
    | none => .error "HTTP error for mod download"

/-- The mods directory as a map from filename to content. -/
abbrev ModsDir := List (String × ByteSeq)

/-- `fs::remove_file` inside the mods directory. -/
def removeFile (name : String) (d : ModsDir) : ModsDir :=
  d.filter (fun p => p.1 ≠ name)

/-- `fs::write` inside the mods directory (create or overwrite). -/
def writeFile (name : String) (b : ByteSeq) (d : ModsDir) : ModsDir :=
  removeFile name d ++ [(name, b)]

/-- State threaded through the reconciliation loop of
`update_mods_intelligently`: the mods directory plus the accumulated
result lists.  `removedOld` records each `fs::remove_file` target of the
update branch (an observation of the loop's trace). -/
structure LoopState where
  disk : ModsDir
  updatedMods : List String
  newMods : List String
  errorsAcc : List String
  removedOld : List String
deriving DecidableEq, Repr

/-- One iteration of the reconciliation loop of
`update_mods_intelligently` (lines 1113-1165): skip non-`mods/` files;
for a mods file, look its normalized key up in the existing-mod map —
same filename means skip, a different filename means remove the old file
and download the new one (recording `"old → new"` or an error), no match
means download as a new mod (recording the name or an error). -/
def processMrpackFile (fetch : String → Option ByteSeq)
    (existing : List (String × ModInfo)) (st : LoopState) (f : MrpackFile) :
    LoopState :=
  if ¬ isModsPath f then st
  else
    match existing.lookup (normalizeS (basenameOf f.path)) with
    | some em =>
      if em.filename = basenameOf f.path then st
      else
        match downloadModFile fetch f with
        | .ok b =>
          { st with disk := writeFile (basenameOf f.path) b (removeFile em.filename st.disk)
                    updatedMods :=
                      st.updatedMods ++ [em.filename ++ " → " ++ basenameOf f.path]
                    removedOld := st.removedOld ++ [em.filename] }
        | .error e =>
          { st with disk := removeFile em.filename st.disk
                    errorsAcc :=
                      st.errorsAcc ++ ["Failed to update " ++ basenameOf f.path ++ ": " ++ e]
                    removedOld := st.removedOld ++ [em.filename] }
    | none =>
      match downloadModFile fetch f with
      | .ok b =>
        { st with disk := writeFile (basenameOf f.path) b st.disk
                  newMods := st.newMods ++ [basenameOf f.path] }
      | .error e =>
        { st with errorsAcc :=
                    st.errorsAcc ++ ["Failed to add " ++ basenameOf f.path ++ ": " ++ e] }

/-- The whole reconciliation loop, in `index.files` order. -/
def reconcileAll (fetch : String → Option ByteSeq)
    (existing : List (String × ModInfo)) (files : List MrpackFile)
    (st : LoopState) : LoopState :=
  files.foldl (processMrpackFile fetch existing) st

/-- The loop's initial state over a given mods directory. -/
def initLoopState (disk0 : ModsDir) : LoopState :=
  { disk := disk0, updatedMods := [], newMods := [], errorsAcc := [], removedOld := [] }

/-- Embedding of `updater.rs::update_mods_intelligently` (lines
1084-1209): run the reconciliation loop, record every existing mod whose
key is not in `modpack_mod_names` as preserved, append the cleanup and
automodpack failures (if any) to the errors, drop the launcher-database
failure (`_dbRes`; the code only logs it), and assemble the
`UpdateResult` with `success = errors.is_empty()`. -/
def updateModsIntelligently (fetch : String → Option ByteSeq)
    (instanceName : String) (index : MrpackIndex)
    (existing : List (String × ModInfo)) (disk0 : ModsDir)
    (cleanupRes autoRes _dbRes : Except String Unit) : UpdateResult :=
  let keys := modpackModNames index.files
  let st := reconcileAll fetch existing index.files (initLoopState disk0)
  let preserved := existing.filterMap
    (fun p => if keys.contains p.1 then none else some p.2.filename)
  let errs :=
    (st.errorsAcc ++
      (match cleanupRes with
       | .ok _ => []
       | .error e => ["Failed to cleanup duplicates: " ++ e])) ++
      (match autoRes with
       | .ok _ => []
       | .error e => ["Failed to update automodpack config: " ++ e])
  let success := errs.isEmpty
  { instanceName := instanceName
    success := success
    updatedMods := st.updatedMods
    newMods := st.newMods
    preservedMods := preserved
    errors := errs
    message :=
      if success then
        "Successfully updated " ++ toString st.updatedMods.length ++ " mods, added " ++
          toString st.newMods.length ++ " new mods, preserved " ++
          toString preserved.length ++ " user mods"
      else "Update completed with " ++ toString errs.length ++ " errors" }

/-! Deduplication sweep (`updater.rs::cleanup_duplicate_mods`, lines
433-471). -/

/-- The normalized key of a `.jar` directory entry. -/
def jarKeyOf (e : DirEntry) : Option String :=
  if isJarName e.filename then some (normalizeS e.filename) else none

/-- `mod_groups.entry(k).or_insert_with(Vec::new).push(e)`. -/
def addToGroups (k : String) (e : DirEntry) :
    List (String × List DirEntry) → List (String × List DirEntry)
  | [] => [(k, [e])]
  | (k', g) :: rest =>
    if k' = k then (k', g ++ [e]) :: rest else (k', g) :: addToGroups k e rest

/-- Grouping of the `.jar` entries by normalized name (lines 437-445). -/
def modGroups (entries : List DirEntry) : List (String × List DirEntry) :=
  entries.foldl
    (fun gs e => if isJarName e.filename then addToGroups (normalizeS e.filename) e gs else gs)
    []

/-- All `.jar` entries sharing the normalized key `k`. -/
def groupOf (entries : List DirEntry) (k : String) : List DirEntry :=
  entries.filter (fun e => jarKeyOf e == some k)

/-- Stable insertion step for the descending-by-mtime sort. -/
def insertByMtime (x : DirEntry) : List DirEntry → List DirEntry
  | [] => [x]
  | y :: ys => if x.mtime ≥ y.mtime then x :: y :: ys else y :: insertByMtime x ys

/-- Stable descending sort by modification time, extensionally equal to
the source's stable `paths.sort_by(|a, b| b_time.cmp(&a_time))`. -/
def sortByMtimeDesc : List DirEntry → List DirEntry
  | [] => []
  | x :: xs => insertByMtime x (sortByMtimeDesc xs)

/-- The entries removed by the sweep (lines 447-468): within every group
of size `> 1`, everything but the head of the descending sort. -/
def deletedDuplicates (entries : List DirEntry) : List DirEntry :=
  ((modGroups entries).map
    (fun kg => if kg.2.length > 1 then (sortByMtimeDesc kg.2).tail else [])).flatten

/-- The directory contents surviving the sweep. -/
def cleanupSurvivors (entries : List DirEntry) : List DirEntry :=
  entries.filter (fun e => e ∉ deletedDuplicates entries)

/-! Concrete fixtures used by counterexamples and witnesses. -/

/-- A fetch oracle that always succeeds with the bytes `[9]`. -/
def constFetch : String → Option ByteSeq := fun _ => some [9]

/-- A hash oracle with a constant digest. -/
def constSha : ByteSeq → String := fun _ => "da39a3ee"

/-- An mrpack file whose `path` climbs out of the instance directory. -/
def evilFile : MrpackFile :=
  { path := "../../evil.jar", hashes := [], env := none,
    downloads := ["http://mirror/evil.jar"], fileSize := 1 }

/-- An mrpack file with an absolute `path`. -/
def evilAbsFile : MrpackFile :=
  { path := "/tmp/evil2.jar", hashes := [], env := none,
    downloads := ["http://mirror/evil2.jar"], fileSize := 1 }

/-- An mrpack whose ZIP has an override entry with a `..` segment and
whose file list contains a `..`-climbing path and an absolute path. -/
def evilArchive : Archive :=
  { indexJson := some
      { formatVersion := 1, game := "minecraft", versionId := "1.0.0",
        name := "evil-pack", summary := none,
        files := [evilFile, evilAbsFile],
        dependencies := [("minecraft", "1.21.1")] }
    entries := [{ name := "overrides/../escape.txt", isDir := false, content := [1, 2] }] }

/-- A well-formed empty mrpack whose `format_version` is 2. -/
def fv2Archive : Archive :=
  { indexJson := some
      { formatVersion := 2, game := "minecraft", versionId := "2.0.0",
        name := "fv2-pack", summary := none, files := [],
        dependencies := [("minecraft", "1.21.1")] }
    entries := [] }

/-- A required mods file with a single mirror and an expected sha1. -/
def oneMirrorFile : MrpackFile :=
  { path := "mods/a.jar", hashes := [("sha1", "aa")], env := none,
    downloads := ["u1"], fileSize := 1 }

/-- A fetch oracle that always succeeds with the bytes `[1]`. -/
def oneFetch : String → Option ByteSeq := fun _ => some [1]

/-- A hash oracle whose digest never matches `"aa"`. -/
def badSha : ByteSeq → String := fun _ => "bb"

/-- A mods file listing two mirrors, expecting the sha1 `"deadbeef"`. -/
def twoMirrorFile : MrpackFile :=
  { path := "mods/x.jar", hashes := [("sha1", "deadbeef")], env := none,
    downloads := ["u1", "u2"], fileSize := 1 }

/-- A fetch oracle for which the first mirror fails and the second
succeeds. -/
def firstDownFetch : String → Option ByteSeq :=
  fun u => if u = "u1" then none else some [1]

/-- The inventory record of the instance's old sodium build. -/
def oldSodiumInfo : ModInfo :=
  modInfoOf { filename := "sodium-0.5.8.jar", size := 10, mtime := 5 }

/-- A concrete existing-mod inventory: the modpack's sodium plus one
user mod. -/
def sampleInventory : List (String × ModInfo) :=
  [("sodium", oldSodiumInfo),
   ("user-mod", modInfoOf { filename := "user-mod-1.0.jar", size := 20, mtime := 6 })]

/-- The mrpack file shipping the new sodium build. -/
def sodium59File : MrpackFile :=
  { path := "mods/sodium-0.5.9.jar", hashes := [], env := none,
    downloads := ["u"], fileSize := 3 }

/-- A concrete mrpack index shipping `sodium-0.5.9.jar`. -/
def sampleIndex : MrpackIndex :=
  { formatVersion := 1, game := "minecraft", versionId := "2.0.0",
    name := "sample", summary := none,
    files := [sodium59File],
    dependencies := [("minecraft", "1.21.1")] }

/-- The concrete mods directory matching `sampleInventory`. -/
def sampleDisk : ModsDir :=
  [("sodium-0.5.8.jar", [1]), ("user-mod-1.0.jar", [2])]

/-- A mods directory listing with two files normalizing to `"sodium"`
and one to `"user-mod"`. -/
def dupEntries : List DirEntry :=
  [{ filename := "sodium-0.5.8.jar", size := 10, mtime := 1 },
   { filename := "sodium-0.5.9.jar", size := 11, mtime := 2 },
   { filename := "user-mod-1.0.jar", size := 20, mtime := 3 }]

/-- Spec-side normalization, written from the words of §4.9 of the spec:
"Lower-case; strip `.jar` and `.disabled`.  If the name contains `$`,
keep only the substring before the first `$`.  Tokenize by `-`.  Return
the first token unless the second token exists and its first character is
not a digit, in which case return the first two tokens joined by `-`."
(An empty second token has no first character, so the "unless" condition
does not apply to it.) -/
def specCut (s1 : List Char) : List Char :=
  if s1.contains '$' then s1.takeWhile (· ≠ '$') else s1

/-- Spec-side tokenization step of §4.9 (see `specNormalize`). -/
def specPick (s2 : List Char) : List Char :=
  match splitDash s2 with
  | [] => []
  | [t0] => t0
  | t0 :: t1 :: _ =>
    match t1 with
    | [] => t0
    | c :: _ => if ¬ c.isDigit then t0 ++ '-' :: t1 else t0

/-- Spec-side normalization assembled from the words of §4.9. -/
def specNormalize (s : List Char) : List Char :=
  specPick (specCut (stripDisabled (stripJar (s.map Char.toLower))))

/-- `Char.ofNat` at a valid codepoint round-trips through `toNat`. -/
theorem char_toNat_ofNat (n : Nat) (h : n.isValidChar) : (Char.ofNat n).toNat = n := by
  rw [Char.ofNat, dif_pos h]
  rfl

/-- ASCII lowercasing is idempotent. -/
theorem toLower_idem (c : Char) : c.toLower.toLower = c.toLower := by
  unfold Char.toLower
  by_cases h : c.toNat ≥ 65 ∧ c.toNat ≤ 90
  · rw [if_pos h]
    have hv : (c.toNat + 32).isValidChar := Or.inl (by omega)
    rw [char_toNat_ofNat _ hv, if_neg (by omega)]
  · rw [if_neg h, if_neg h]

theorem stripJar_of_not (l : List Char) (h : hasJarSub l = false) : stripJar l = l := by
  induction l using stripJar.induct with
  | case1 rest ih => rw [hasJarSub.eq_1] at h; cases h
  | case2 c rest hne ih =>
    rw [stripJar.eq_2 c rest hne]
    rw [hasJarSub.eq_2 c rest hne] at h
    rw [ih h]
  | case3 => rfl

theorem stripDisabled_of_not (l : List Char) (h : hasDisabledSub l = false) :
    stripDisabled l = l := by
  induction l using stripDisabled.induct with
  | case1 rest ih => rw [hasDisabledSub.eq_1] at h; cases h
  | case2 c rest hne ih =>
    rw [stripDisabled.eq_2 c rest hne]
    rw [hasDisabledSub.eq_2 c rest hne] at h
    rw [ih h]
  | case3 => rfl

theorem mem_stripJar {c : Char} {l : List Char} (h : c ∈ stripJar l) : c ∈ l := by
  induction l using stripJar.induct with
  | case1 rest ih =>
    rw [stripJar.eq_1] at h
    simp only [List.mem_cons]
    exact Or.inr (Or.inr (Or.inr (Or.inr (ih h))))
  | case2 d rest hne ih =>
    rw [stripJar.eq_2 d rest hne] at h
    rcases List.mem_cons.mp h with h | h
    · exact List.mem_cons.mpr (Or.inl h)
    · exact List.mem_cons.mpr (Or.inr (ih h))
  | case3 => cases h

theorem mem_stripDisabled {c : Char} {l : List Char} (h : c ∈ stripDisabled l) : c ∈ l := by
  induction l using stripDisabled.induct with
  | case1 rest ih =>
    rw [stripDisabled.eq_1] at h
    simp only [List.mem_cons]
    have := ih h
    tauto
  | case2 d rest hne ih =>
    rw [stripDisabled.eq_2 d rest hne] at h
    rcases List.mem_cons.mp h with h | h
    · exact List.mem_cons.mpr (Or.inl h)
    · exact List.mem_cons.mpr (Or.inr (ih h))
  | case3 => cases h

theorem splitDash_ne_nil (l : List Char) : splitDash l ≠ [] := by
  cases l with
  | nil => simp [splitDash]
  | cons c cs =>
    by_cases hc : c = '-'
    · simp [splitDash, hc]
    · simp only [splitDash, if_neg hc]
      cases splitDash cs <;> simp

theorem splitDollar_ne_nil (l : List Char) : splitDollar l ≠ [] := by
  cases l with
  | nil => simp [splitDollar]
  | cons c cs =>
    by_cases hc : c = '$'
    · simp [splitDollar, hc]
    · simp only [splitDollar, if_neg hc]
      cases splitDollar cs <;> simp

theorem mem_splitDash {p : List Char} {l : List Char} (hp : p ∈ splitDash l)
    {c : Char} (hc : c ∈ p) : c ∈ l ∧ c ≠ '-' := by
  induction l generalizing p with
  | nil =>
    simp [splitDash] at hp
    subst hp
    cases hc
  | cons d ds ih =>
    by_cases hd : d = '-'
    · rw [splitDash, if_pos hd] at hp
      rcases List.mem_cons.mp hp with h | h
      · subst h; cases hc
      · have := ih h hc
        exact ⟨List.mem_cons.mpr (Or.inr this.1), this.2⟩
    · rw [splitDash, if_neg hd] at hp
      rcases hsp : splitDash ds with _ | ⟨q, qs⟩
      · exact absurd hsp (splitDash_ne_nil ds)
      · rw [hsp] at hp
        rcases List.mem_cons.mp hp with h | h
        · subst h
          rcases List.mem_cons.mp hc with h | h
          · subst h
            exact ⟨List.mem_cons.mpr (Or.inl rfl), hd⟩
          · have := ih (hsp ▸ List.mem_cons.mpr (Or.inl rfl)) h
            exact ⟨List.mem_cons.mpr (Or.inr this.1), this.2⟩
        · have := ih (hsp ▸ List.mem_cons.mpr (Or.inr h)) hc
          exact ⟨List.mem_cons.mpr (Or.inr this.1), this.2⟩

theorem mem_splitDollar {p : List Char} {l : List Char} (hp : p ∈ splitDollar l)
    {c : Char} (hc : c ∈ p) : c ∈ l ∧ c ≠ '$' := by
  induction l generalizing p with
  | nil =>
    simp [splitDollar] at hp
    subst hp
    cases hc
  | cons d ds ih =>
    by_cases hd : d = '$'
    · rw [splitDollar, if_pos hd] at hp
      rcases List.mem_cons.mp hp with h | h
      · subst h; cases hc
      · have := ih h hc
        exact ⟨List.mem_cons.mpr (Or.inr this.1), this.2⟩
    · rw [splitDollar, if_neg hd] at hp
      rcases hsp : splitDollar ds with _ | ⟨q, qs⟩
      · exact absurd hsp (splitDollar_ne_nil ds)
      · rw [hsp] at hp
        rcases List.mem_cons.mp hp with h | h
        · subst h
          rcases List.mem_cons.mp hc with h | h
          · subst h
            exact ⟨List.mem_cons.mpr (Or.inl rfl), hd⟩
          · have := ih (hsp ▸ List.mem_cons.mpr (Or.inl rfl)) h
            exact ⟨List.mem_cons.mpr (Or.inr this.1), this.2⟩
        · have := ih (hsp ▸ List.mem_cons.mpr (Or.inr h)) hc
          exact ⟨List.mem_cons.mpr (Or.inr this.1), this.2⟩

theorem splitDash_of_no_dash (l : List Char) (h : ∀ c ∈ l, c ≠ '-') :
    splitDash l = [l] := by
  induction l with
  | nil => rfl
  | cons c cs ih =>
    have hc : c ≠ '-' := h c (List.mem_cons.mpr (Or.inl rfl))
    rw [splitDash, if_neg hc, ih (fun d hd => h d (List.mem_cons.mpr (Or.inr hd)))]

theorem splitDash_append (p0 r : List Char) (h : ∀ c ∈ p0, c ≠ '-') :
    splitDash (p0 ++ '-' :: r) = p0 :: splitDash r := by
  induction p0 with
  | nil => simp [splitDash]
  | cons c cs ih =>
    have hc : c ≠ '-' := h c (List.mem_cons.mpr (Or.inl rfl))
    rw [List.cons_append, splitDash, if_neg hc,
      ih (fun d hd => h d (List.mem_cons.mpr (Or.inr hd)))]

theorem splitDollar_headD (l : List Char) :
    (splitDollar l).headD l = l.takeWhile (· ≠ '$') := by
  induction l with
  | nil => rfl
  | cons c cs ih =>
    by_cases hc : c = '$'
    · subst hc
      simp [splitDollar, List.takeWhile]
    · rw [splitDollar, if_neg hc]
      rcases hsp : splitDollar cs with _ | ⟨q, qs⟩
      · exact absurd hsp (splitDollar_ne_nil cs)
      · rw [hsp] at ih
        simp only [List.headD_cons] at ih ⊢
        rw [List.takeWhile_cons, if_pos (by simpa using hc), ← ih]

theorem map_self {f : Char → Char} {l : List Char} (h : ∀ c ∈ l, f c = c) :
    l.map f = l := by
  induction l with
  | nil => rfl
  | cons c cs ih =>
    rw [List.map_cons, h c (List.mem_cons.mpr (Or.inl rfl)),
      ih (fun d hd => h d (List.mem_cons.mpr (Or.inr hd)))]

theorem lowerStrip_chars {s : List Char} {c : Char} (hc : c ∈ lowerStrip s) :
    c.toLower = c := by
  have h1 : c ∈ s.map Char.toLower := mem_stripJar (mem_stripDisabled hc)
  rcases List.mem_map.mp h1 with ⟨d, _, rfl⟩
  exact toLower_idem d

theorem dollarCut_chars {s1 : List Char} {c : Char} (hc : c ∈ dollarCut s1) :
    c ∈ s1 ∧ c ≠ '$' := by
  unfold dollarCut at hc
  by_cases hb : s1.contains '$'
  · rw [if_pos hb] at hc
    rcases hsp : splitDollar s1 with _ | ⟨q, qs⟩
    · exact absurd hsp (splitDollar_ne_nil s1)
    · rw [hsp] at hc
      have hq : q ∈ splitDollar s1 := by
        rw [hsp]
        exact List.mem_cons.mpr (Or.inl rfl)
      exact mem_splitDollar hq hc
  · rw [if_neg hb] at hc
    refine ⟨hc, ?_⟩
    intro hceq
    subst hceq
    exact hb (by simpa using hc)

theorem dashPick_cases (s2 : List Char) :
    (dashPick s2 ∈ splitDash s2) ∨
    (∃ p0 c1 r1 rest, splitDash s2 = p0 :: (c1 :: r1) :: rest ∧ ¬ c1.isDigit ∧
      dashPick s2 = p0 ++ '-' :: c1 :: r1) := by
  unfold dashPick
  rcases hsp : splitDash s2 with _ | ⟨p0, tail⟩
  · exact absurd hsp (splitDash_ne_nil s2)
  · rcases tail with _ | ⟨p1, rest⟩
    · simp
    · rcases p1 with _ | ⟨c1, r1⟩
      · simp
      · by_cases hdig : (c1 :: r1).headD '0' |>.isDigit
        · simp only [List.headD_cons] at hdig
          simp [hdig]
        · simp only [List.headD_cons] at hdig
          right
          exact ⟨p0, c1, r1, rest, rfl, hdig, by simp [hdig]⟩

theorem normalize_chars {s : List Char} {c : Char} (hc : c ∈ normalizeModName s) :
    c.toLower = c ∧ c ≠ '$' := by
  unfold normalizeModName at hc
  have base : ∀ d ∈ dollarCut (lowerStrip s), d.toLower = d ∧ d ≠ '$' := by
    intro d hd
    have h2 := dollarCut_chars hd
    exact ⟨lowerStrip_chars h2.1, h2.2⟩
  rcases dashPick_cases (dollarCut (lowerStrip s)) with h | ⟨p0, c1, r1, rest, hsp, hdig, heq⟩
  · have := mem_splitDash h hc
    exact base c this.1
  · rw [heq] at hc
    rcases List.mem_append.mp hc with h | h
    · have hp0 : p0 ∈ splitDash (dollarCut (lowerStrip s)) :=
        hsp ▸ List.mem_cons.mpr (Or.inl rfl)
      exact base c (mem_splitDash hp0 h).1
    · rcases List.mem_cons.mp h with h | h
      · subst h
        exact ⟨by decide, by decide⟩
      · have hp1 : (c1 :: r1) ∈ splitDash (dollarCut (lowerStrip s)) :=
          hsp ▸ List.mem_cons.mpr (Or.inr (List.mem_cons.mpr (Or.inl rfl)))
        exact base c (mem_splitDash hp1 h).1

theorem normalize_shape (s : List Char) :
    (∀ c ∈ normalizeModName s, c ≠ '-') ∨
    (∃ p0 c1 r1, normalizeModName s = p0 ++ '-' :: c1 :: r1 ∧
      (∀ c ∈ p0, c ≠ '-') ∧ (∀ c ∈ c1 :: r1, c ≠ '-') ∧ ¬ c1.isDigit) := by
  unfold normalizeModName
  rcases dashPick_cases (dollarCut (lowerStrip s)) with h | ⟨p0, c1, r1, rest, hsp, hdig, heq⟩
  · exact Or.inl (fun c hc => (mem_splitDash h hc).2)
  · right
    refine ⟨p0, c1, r1, heq, ?_, ?_, hdig⟩
    · intro c hc
      have hp0 : p0 ∈ splitDash (dollarCut (lowerStrip s)) :=
        hsp ▸ List.mem_cons.mpr (Or.inl rfl)
      exact (mem_splitDash hp0 hc).2
    · intro c hc
      have hp1 : (c1 :: r1) ∈ splitDash (dollarCut (lowerStrip s)) :=
        hsp ▸ List.mem_cons.mpr (Or.inr (List.mem_cons.mpr (Or.inl rfl)))
      exact (mem_splitDash hp1 hc).2

theorem dashPick_of_no_dash (l : List Char) (h : ∀ c ∈ l, c ≠ '-') :
    dashPick l = l := by
  unfold dashPick
  rw [splitDash_of_no_dash l h]
  simp

/-- `normalize_mod_name` is the identity on any output of
`normalize_mod_name` that has no leftover `".jar"` or `".disabled"`
occurrence. -/
theorem normalize_fix (s : List Char)
    (hj : hasJarSub (normalizeModName s) = false)
    (hd : hasDisabledSub (normalizeModName s) = false) :
    normalizeModName (normalizeModName s) = normalizeModName s := by
  have hlower : (normalizeModName s).map Char.toLower = normalizeModName s :=
    map_self (fun c hc => (normalize_chars hc).1)
  have hls : lowerStrip (normalizeModName s) = normalizeModName s := by
    unfold lowerStrip
    rw [hlower, stripJar_of_not _ hj, stripDisabled_of_not _ hd]
  have hdc : dollarCut (normalizeModName s) = normalizeModName s := by
    unfold dollarCut
    have : (normalizeModName s).contains '$' = false := by
      by_contra hb
      have hb' : (normalizeModName s).contains '$' = true := by
        cases h : (normalizeModName s).contains '$'
        · exact absurd h hb
        · rfl
      have : '$' ∈ normalizeModName s := by simpa using hb'
      exact (normalize_chars this).2 rfl
    rw [this]
    simp
  conv_lhs => rw [normalizeModName, hls, hdc]
  rcases normalize_shape s with h | ⟨p0, c1, r1, heq, hp0, hp1, hdig⟩
  · exact dashPick_of_no_dash _ h
  · rw [heq]
    unfold dashPick
    rw [splitDash_append p0 _ hp0, splitDash_of_no_dash _ hp1]
    simp [hdig]

/-- The code's `normalize_mod_name` agrees with the §4.9 spec-side
definition on every input. -/
theorem dollarCut_eq_specCut (s1 : List Char) : dollarCut s1 = specCut s1 := by
  unfold dollarCut specCut
  by_cases hb : s1.contains '$'
  · rw [if_pos hb, if_pos hb, splitDollar_headD]
  · rw [if_neg hb, if_neg hb]

theorem dashPick_eq_specPick (s2 : List Char) : dashPick s2 = specPick s2 := by
  unfold dashPick specPick
  rcases hsp : splitDash s2 with _ | ⟨p0, tail⟩
  · exact absurd hsp (splitDash_ne_nil _)
  · rcases tail with _ | ⟨p1, rest⟩
    · simp
    · rcases p1 with _ | ⟨c1, r1⟩
      · simp
      · by_cases hdig : c1.isDigit <;> simp [hdig]

theorem normalize_eq_specNormalize (s : List Char) :
    normalizeModName s = specNormalize s := by
  rw [normalizeModName, specNormalize, lowerStrip, dollarCut_eq_specCut,
    dashPick_eq_specPick]

/-- C4: `normalize_mod_name` implements the §4.9 definition — lowercase,
strip `.jar` and `.disabled`, keep only the part before the first `$`,
then return the first `-`-token unless a second token exists whose first
character is not a digit, in which case return the first two tokens
joined by `-` — and on the five concrete inputs of the spec it returns
`sodium`, `sodium`, `sodium-extra`, `chat_heads`, `reinforced-barrels`. -/
theorem normalize_matches_spec_and_examples :
    (∀ s : List Char, normalizeModName s = specNormalize s) ∧
    normalizeS "sodium-0.5.8.jar" = "sodium" ∧
    normalizeS "sodium-0.5.9.jar" = "sodium" ∧
    normalizeS "sodium-extra-0.6.0.jar" = "sodium-extra" ∧
    normalizeS "chat_heads-0.14.0-neoforge-1.21.jar" = "chat_heads" ∧
    normalizeS "reinforced-barrels-2.6.1+1.21.1$reinforced-core-4.0.2.jar" = "reinforced-barrels" :=
  ⟨normalize_eq_specNormalize, by decide, by decide, by decide, by decide, by decide⟩

/-- C5 counterexample: `normalize_mod_name` is not idempotent.  On
`"x.ja.disabledr"` the first pass removes the inner `".disabled"` and
leaves `"x.jar"`, whose second pass strips the newly formed `".jar"`. -/
theorem normalize_not_idempotent_cx :
    normalizeS (normalizeS "x.ja.disabledr") ≠ normalizeS "x.ja.disabledr" := by
  decide

/-- C5 (amended): `normalize_mod_name` is idempotent on every filename
whose normalized form contains no occurrence of `".jar"` or
`".disabled"` — in particular on every ordinary mod filename. -/
theorem normalize_idem_of_clean (s : List Char)
    (hj : hasJarSub (normalizeModName s) = false)
    (hd : hasDisabledSub (normalizeModName s) = false) :
    normalizeModName (normalizeModName s) = normalizeModName s :=
  normalize_fix s hj hd

/-- Witness for `normalize_idem_of_clean` at `"sodium-extra-0.6.0.jar"`. -/
theorem normalize_idem_of_clean_witness :
    hasJarSub (normalizeModName "sodium-extra-0.6.0.jar".toList) = false ∧
    hasDisabledSub (normalizeModName "sodium-extra-0.6.0.jar".toList) = false ∧
    normalizeModName (normalizeModName "sodium-extra-0.6.0.jar".toList) =
      normalizeModName "sodium-extra-0.6.0.jar".toList :=
  ⟨by decide, by decide, normalize_idem_of_clean _ (by decide) (by decide)⟩

set_option linter.unreachableTactic false in
set_option linter.unusedTactic false in
set_option linter.unnecessarySeqFocus false in
theorem detect_eq_specClassify (d : DirState) :
    detectLauncherType d = specClassify d := by
  unfold detectLauncherType specClassify specRules
  by_cases hp : d.present
  · by_cases h1 : d.hasAppWindowState ∧ d.hasProfilesDir ∧ d.baseName = "ModrinthApp"
    · simp [hp, h1, firstMatch]
    · by_cases h2 : d.hasAppWindowState ∧ d.hasProfilesDir
      · simp [hp, h1, h2, firstMatch] <;> split_ifs <;> simp_all
      · by_cases h3 : d.hasPrismCfg ∧ d.hasInstancesDir
        · simp [hp, h1, h2, h3, firstMatch] <;> split_ifs <;> simp_all
        · by_cases h4 : d.hasInstancesDir ∧ d.hasLauncherProfiles
          · simp [hp, h1, h2, h3, h4, firstMatch] <;> split_ifs <;> simp_all
          · by_cases h5 : d.hasLauncherProfiles ∧ (d.hasVersionsDir ∨ d.baseName = ".minecraft")
            · simp [hp, h1, h2, h3, h4, h5, firstMatch] <;> split_ifs <;> simp_all
            · by_cases h6 : d.hasMultiMCCfg ∧ d.hasInstancesDir
              · simp [hp, h1, h2, h3, h4, h5, h6, firstMatch] <;> split_ifs <;> simp_all
              · by_cases h7 : d.hasConfigsDir ∧ d.hasInstancesDir ∧ d.hasServersDir
                · simp [hp, h1, h2, h3, h4, h5, h6, h7, firstMatch] <;> split_ifs <;> simp_all
                · simp [hp, h1, h2, h3, h4, h5, h6, h7, firstMatch] <;> split_ifs <;> simp_all
  · simp [hp]

/-- C3: `detect_launcher_type` evaluates the §4.5 marker rules in exactly
the stated order with first match winning (it equals the spec-side
ordered classifier on every directory state), and in particular a
directory with `prismlauncher.cfg` and `instances/` that no earlier rule
claims classifies as PrismCracked when `accounts.json` is readable and
contains `"Offline"`, and as Prism otherwise. -/
theorem detect_launcher_type_spec_order :
    (∀ d : DirState, detectLauncherType d = specClassify d) ∧
    (∀ d : DirState, d.present = true →
      ¬(d.hasAppWindowState = true ∧ d.hasProfilesDir = true) →
      d.hasPrismCfg = true → d.hasInstancesDir = true →
      detectLauncherType d =
        (if accountsOffline d then LauncherType.prismCracked else LauncherType.prism)) := by
  refine ⟨detect_eq_specClassify, ?_⟩
  intro d hp hn h3 h4
  have h1 : ¬(d.hasAppWindowState = true ∧ d.hasProfilesDir = true ∧
      d.baseName = "ModrinthApp") := by tauto
  simp [detectLauncherType, hp, h1, hn, h3, h4]

/-- Witness for `detect_launcher_type_spec_order` at a concrete cracked
Prism directory. -/
theorem detect_launcher_type_spec_order_witness :
    detectLauncherType prismCrackedDir =
      (if accountsOffline prismCrackedDir then LauncherType.prismCracked
       else LauncherType.prism) :=
  detect_launcher_type_spec_order.2 prismCrackedDir (by decide) (by decide)
    (by decide) (by decide)

/-- C1: `install_mrpack` performs no validation of ZIP entry names or
`MrpackFile.path` values.  On an mrpack containing the override entry
`overrides/../escape.txt`, the file path `../../evil.jar` and the
absolute file path `/tmp/evil2.jar`, the install succeeds and each of
the three writes lands outside the instance content root. -/
theorem install_mrpack_path_traversal_bug :
    installMrpack constFetch constSha evilArchive "/launcher/instances/inst" =
      .ok ([("/launcher/instances/inst/../escape.txt", [1, 2]),
            ("/launcher/instances/inst/../../evil.jar", [9]),
            ("/tmp/evil2.jar", [9])], "1.21.1", "vanilla") ∧
    staysWithin "/launcher/instances/inst" "/launcher/instances/inst/../escape.txt" = false ∧
    staysWithin "/launcher/instances/inst" "/launcher/instances/inst/../../evil.jar" = false ∧
    staysWithin "/launcher/instances/inst" "/tmp/evil2.jar" = false := by
  refine ⟨?_, by decide, by decide, by decide⟩
  rfl

/-- C2 counterexample: `install_mrpack` accepts an mrpack whose
`format_version` is 2 and completes the install instead of returning a
fatal error. -/
theorem install_accepts_format_version_2_cx :
    fv2Archive.indexJson.map MrpackIndex.formatVersion = some 2 ∧
    installMrpack constFetch constSha fv2Archive "/inst" =
      .ok ([], "1.21.1", "vanilla") :=
  ⟨rfl, rfl⟩

/-- C2 (amended): `install_mrpack` parses `format_version` but never
inspects it: the result of installation is identical for every
`format_version` value, so no archive is rejected on its account. -/
theorem install_ignores_format_version (fetch : String → Option ByteSeq)
    (sha1hex : ByteSeq → String) (a : Archive) (dir : String) (v : Nat) :
    installMrpack fetch sha1hex (withFormatVersion v a) dir =
      installMrpack fetch sha1hex a dir := by
  rcases a with ⟨idx, entries⟩
  cases idx <;> rfl

/-- C6: in the download phase, a file with `env.client = "unsupported"`
is skipped; the mirrors of every other file are tried in `downloads`
order, accepting the first fetched body whose SHA-1 matches the expected
`sha1` when one is present (a mismatch moves to the next mirror); and if
every mirror fails the phase aborts with `DownloadFailed` for that
file's path. -/
theorem mrpack_download_phase_spec :
    (∀ (fetch : String → Option ByteSeq) (sha1hex : ByteSeq → String)
        (dir : String) (f : MrpackFile) (rest : List MrpackFile),
      clientUnsupported f = true →
      downloadFiles fetch sha1hex dir (f :: rest) = downloadFiles fetch sha1hex dir rest) ∧
    (∀ (fetch : String → Option ByteSeq) (sha1hex : ByteSeq → String)
        (expected : Option String) (urls : List String),
      tryMirrors fetch sha1hex expected urls =
        (urls.filterMap (fun u =>
          match fetch u with
          | some b => if hashOk sha1hex expected b then some b else none
          | none => none)).head?) ∧
    (∀ (fetch : String → Option ByteSeq) (sha1hex : ByteSeq → String)
        (dir : String) (f : MrpackFile) (rest : List MrpackFile),
      clientUnsupported f = false →
      tryMirrors fetch sha1hex (f.hashes.lookup "sha1") f.downloads = none →
      downloadFiles fetch sha1hex dir (f :: rest) = .error (.downloadFailed f.path)) := by
  refine ⟨?_, ?_, ?_⟩
  · intro fetch sha1hex dir f rest h
    simp [downloadFiles, h]
  · intro fetch sha1hex expected urls
    induction urls with
    | nil => rfl
    | cons u rest ih =>
      rcases hf : fetch u with _ | b
      · simp [tryMirrors, hf, ih]
      · rcases expected with _ | h
        · simp [tryMirrors, hf, hashOk]
        · by_cases heq : sha1hex b = h
          · simp [tryMirrors, hf, hashOk, heq]
          · simp [tryMirrors, hf, hashOk, heq, ih]
  · intro fetch sha1hex dir f rest h1 h2
    simp [downloadFiles, h1, h2]

/-- Witness for `mrpack_download_phase_spec`: a required file whose only
mirror serves bytes with the wrong SHA-1 makes the phase fail with
`DownloadFailed`. -/
theorem mrpack_download_phase_spec_witness :
    downloadFiles oneFetch badSha "/i" [oneMirrorFile] =
      .error (.downloadFailed "mods/a.jar") :=
  mrpack_download_phase_spec.2.2 oneFetch badSha "/i" oneMirrorFile []
    (by decide) (by decide)

theorem lookup_mem {α β : Type} [BEq α] [LawfulBEq α] {k : α} {v : β} :
    ∀ {l : List (α × β)}, l.lookup k = some v → (k, v) ∈ l := by
  intro l h
  induction l with
  | nil => cases h
  | cons p rest ih =>
    rcases p with ⟨k', v'⟩
    rw [List.lookup_cons] at h
    by_cases hk : k = k'
    · subst hk
      rw [beq_self_eq_true] at h
      injection h with h
      subst h
      exact List.mem_cons.mpr (Or.inl rfl)
    · have hb : (k == k') = false := beq_eq_false_iff_ne.mpr hk
      rw [hb] at h
      exact List.mem_cons.mpr (Or.inr (ih h))

theorem lookup_of_mem_nodup {α β : Type} [BEq α] [LawfulBEq α] {k : α} {v : β} :
    ∀ {l : List (α × β)}, (l.map Prod.fst).Nodup → (k, v) ∈ l → l.lookup k = some v := by
  intro l hnd hm
  induction l with
  | nil => cases hm
  | cons p rest ih =>
    rcases p with ⟨k', v'⟩
    rw [List.map_cons, List.nodup_cons] at hnd
    rcases List.mem_cons.mp hm with h | h
    · injection h with h1 h2
      subst h1; subst h2
      rw [List.lookup_cons, beq_self_eq_true]
    · have hk : k ≠ k' := by
        intro he
        subst he
        exact hnd.1 (List.mem_map.mpr ⟨(k, v), h, rfl⟩)
      rw [List.lookup_cons, beq_eq_false_iff_ne.mpr hk]
      exact ih hnd.2 h

theorem lookup_append {α β : Type} [BEq α] {k : α} :
    ∀ (l1 l2 : List (α × β)),
      (l1 ++ l2).lookup k =
        (match l1.lookup k with
         | some v => some v
         | none => l2.lookup k) := by
  intro l1 l2
  induction l1 with
  | nil => rfl
  | cons p rest ih =>
    rcases p with ⟨k', v'⟩
    rw [List.cons_append, List.lookup_cons, List.lookup_cons]
    cases k == k' with
    | true => rfl
    | false => exact ih

theorem lookup_removeFile_ne {a t : String} (h : a ≠ t) :
    ∀ d : ModsDir, (removeFile a d).lookup t = d.lookup t := by
  intro d
  induction d with
  | nil => rfl
  | cons p rest ih =>
    rcases p with ⟨k, b⟩
    by_cases hk : k = a
    · subst hk
      have : removeFile k ((k, b) :: rest) = removeFile k rest := by
        simp [removeFile]
      rw [this, ih, List.lookup_cons, beq_eq_false_iff_ne.mpr (Ne.symm h)]
    · have : removeFile a ((k, b) :: rest) = (k, b) :: removeFile a rest := by
        simp [removeFile, hk]
      rw [this, List.lookup_cons, List.lookup_cons]
      cases t == k with
      | true => rfl
      | false => exact ih

theorem lookup_writeFile_ne {n t : String} (h : n ≠ t) (b : ByteSeq) (d : ModsDir) :
    (writeFile n b d).lookup t = d.lookup t := by
  unfold writeFile
  rw [lookup_append, lookup_removeFile_ne h d]
  cases d.lookup t with
  | none =>
    rw [List.lookup_cons, beq_eq_false_iff_ne.mpr (Ne.symm h)]
    rfl
  | some v => rfl

theorem filterMap_nodup_inj {α β : Type} {g : α → Option β} {k : β} :
    ∀ {l : List α}, (l.filterMap g).Nodup → ∀ {a b : α},
      a ∈ l → b ∈ l → g a = some k → g b = some k → a = b := by
  intro l hnd
  induction l with
  | nil => intro a b ha; cases ha
  | cons x xs ih =>
    intro a b ha hb hga hgb
    rw [List.filterMap_cons] at hnd
    rcases hgx : g x with _ | y
    · rw [hgx] at hnd
      rcases List.mem_cons.mp ha with rfl | ha'
      · rw [hga] at hgx; cases hgx
      · rcases List.mem_cons.mp hb with rfl | hb'
        · rw [hgb] at hgx; cases hgx
        · exact ih hnd ha' hb' hga hgb
    · rw [hgx] at hnd
      rw [List.nodup_cons] at hnd
      rcases List.mem_cons.mp ha with rfl | ha'
      · rcases List.mem_cons.mp hb with rfl | hb'
        · rfl
        · exfalso
          have hyk : y = k := by
            have := hgx.symm.trans hga
            injection this
          subst hyk
          exact hnd.1 (List.mem_filterMap.mpr ⟨b, hb', hgb⟩)
      · rcases List.mem_cons.mp hb with rfl | hb'
        · exfalso
          have hyk : y = k := by
            have := hgx.symm.trans hgb
            injection this
          subst hyk
          exact hnd.1 (List.mem_filterMap.mpr ⟨a, ha', hga⟩)
        · exact ih hnd.2 ha' hb' hga hgb

theorem ne_of_normalizeS_ne {a b : String} (h : normalizeS a ≠ normalizeS b) : a ≠ b :=
  fun e => h (e ▸ rfl)

/-- One loop iteration never touches the mods-directory slot of a
filename whose normalized key the iteration's file does not carry (and
an iteration whose key resolves to an up-to-date existing mod touches
nothing). -/
theorem processFile_slot (fetch : String → Option ByteSeq)
    (existing : List (String × ModInfo))
    (hwf : ∀ p ∈ existing, p.1 = normalizeS p.2.filename)
    (target : String) (f : MrpackFile)
    (hf : ∀ k, modKeyOf f = some k →
      k ≠ normalizeS target ∨
      (∃ em, existing.lookup k = some em ∧ em.filename = basenameOf f.path))
    (st : LoopState) :
    (processMrpackFile fetch existing st f).disk.lookup target = st.disk.lookup target ∧
    (∀ r ∈ (processMrpackFile fetch existing st f).removedOld,
      r ∈ st.removedOld ∨ r ≠ target) ∧
    (∀ r ∈ (processMrpackFile fetch existing st f).newMods,
      r ∈ st.newMods ∨ r ≠ target) := by
  unfold processMrpackFile
  by_cases hm : isModsPath f
  case neg =>
    rw [if_pos hm]
    exact ⟨rfl, fun r hr => Or.inl hr, fun r hr => Or.inl hr⟩
  case pos =>
    rw [if_neg (by simpa using hm)]
    have hkey : modKeyOf f = some (normalizeS (basenameOf f.path)) := by
      simp [modKeyOf, hm]
    split
    case h_1 em' hl =>
      have hmem := lookup_mem hl
      have hkeyem : normalizeS em'.filename = normalizeS (basenameOf f.path) :=
        (hwf _ hmem).symm
      split
      case isTrue heq =>
        exact ⟨rfl, fun r hr => Or.inl hr, fun r hr => Or.inl hr⟩
      case isFalse heq =>
        have hne : normalizeS (basenameOf f.path) ≠ normalizeS target := by
          rcases hf _ hkey with hne | ⟨em, hlk, hfn⟩
          · simpa using hne
          · rw [hlk] at hl
            injection hl with hl
            subst hl
            exact absurd hfn heq
        have hem_ne : em'.filename ≠ target :=
          ne_of_normalizeS_ne (by rw [hkeyem]; exact hne)
        have hfn_ne : basenameOf f.path ≠ target := ne_of_normalizeS_ne hne
        split
        case h_1 b hdl =>
          refine ⟨?_, ?_, fun r hr => Or.inl hr⟩
          · rw [lookup_writeFile_ne hfn_ne, lookup_removeFile_ne hem_ne]
          · intro r hr
            rcases List.mem_append.mp hr with hr | hr
            · exact Or.inl hr
            · rcases List.mem_cons.mp hr with rfl | hr
              · exact Or.inr hem_ne
              · cases hr
        case h_2 e hdl =>
          refine ⟨lookup_removeFile_ne hem_ne _, ?_, fun r hr => Or.inl hr⟩
          intro r hr
          rcases List.mem_append.mp hr with hr | hr
          · exact Or.inl hr
          · rcases List.mem_cons.mp hr with rfl | hr
            · exact Or.inr hem_ne
            · cases hr
    case h_2 hl =>
      have hne : normalizeS (basenameOf f.path) ≠ normalizeS target := by
        rcases hf _ hkey with hne | ⟨em, hlk, hfn⟩
        · simpa using hne
        · rw [hlk] at hl; cases hl
      have hfn_ne : basenameOf f.path ≠ target := ne_of_normalizeS_ne hne
      split
      case h_1 b hdl =>
        refine ⟨lookup_writeFile_ne hfn_ne _ _, fun r hr => Or.inl hr, ?_⟩
        intro r hr
        rcases List.mem_append.mp hr with hr | hr
        · exact Or.inl hr
        · rcases List.mem_cons.mp hr with rfl | hr
          · exact Or.inr hfn_ne
          · cases hr
      case h_2 e hdl =>
        exact ⟨rfl, fun r hr => Or.inl hr, fun r hr => Or.inl hr⟩

/-- `processFile_slot` extended over the whole reconciliation loop. -/
theorem reconcile_slot (fetch : String → Option ByteSeq)
    (existing : List (String × ModInfo))
    (hwf : ∀ p ∈ existing, p.1 = normalizeS p.2.filename)
    (target : String) :
    ∀ (fs : List MrpackFile),
      (∀ f ∈ fs, ∀ k, modKeyOf f = some k →
        k ≠ normalizeS target ∨
        (∃ em, existing.lookup k = some em ∧ em.filename = basenameOf f.path)) →
      ∀ st : LoopState,
        (reconcileAll fetch existing fs st).disk.lookup target = st.disk.lookup target ∧
        (∀ r ∈ (reconcileAll fetch existing fs st).removedOld,
          r ∈ st.removedOld ∨ r ≠ target) ∧
        (∀ r ∈ (reconcileAll fetch existing fs st).newMods,
          r ∈ st.newMods ∨ r ≠ target) := by
  intro fs
  induction fs with
  | nil =>
    intro _ st
    exact ⟨rfl, fun r hr => Or.inl hr, fun r hr => Or.inl hr⟩
  | cons f rest ih =>
    intro hfs st
    have hstep := processFile_slot fetch existing hwf target f
      (hfs f (List.mem_cons.mpr (Or.inl rfl))) st
    have hrest := ih (fun g hg => hfs g (List.mem_cons.mpr (Or.inr hg)))
      (processMrpackFile fetch existing st f)
    have hre : reconcileAll fetch existing (f :: rest) st =
        reconcileAll fetch existing rest (processMrpackFile fetch existing st f) := rfl
    rw [hre]
    refine ⟨hrest.1.trans hstep.1, ?_, ?_⟩
    · intro r hr
      rcases hrest.2.1 r hr with h | h
      · exact hstep.2.1 r h
      · exact Or.inr h
    · intro r hr
      rcases hrest.2.2 r hr with h | h
      · exact hstep.2.2 r h
      · exact Or.inr h

/-- C7: in `update_mods_intelligently`, an existing mod matched by a mods
file with the same normalized key and an identical filename is skipped
untouched by the reconciliation loop (its directory slot is unchanged,
it is never removed and never recorded as new); every existing mod whose
normalized key is absent from `modpack_mod_names` is recorded in
`preserved_mods` and its file is neither removed nor replaced by the
loop; and the returned `UpdateResult` has `success = true` exactly when
its `errors` list is empty. -/
theorem update_engine_classification (fetch : String → Option ByteSeq)
    (instName : String) (index : MrpackIndex)
    (existing : List (String × ModInfo)) (disk0 : ModsDir)
    (cleanupRes autoRes dbRes : Except String Unit)
    (hwf : ∀ p ∈ existing, p.1 = normalizeS p.2.filename)
    (hnd : (modpackModNames index.files).Nodup) :
    (∀ f ∈ index.files, ∀ em, isModsPath f = true →
      existing.lookup (normalizeS (basenameOf f.path)) = some em →
      em.filename = basenameOf f.path →
      (reconcileAll fetch existing index.files (initLoopState disk0)).disk.lookup em.filename
          = disk0.lookup em.filename ∧
      em.filename ∉ (reconcileAll fetch existing index.files (initLoopState disk0)).removedOld ∧
      em.filename ∉ (reconcileAll fetch existing index.files (initLoopState disk0)).newMods) ∧
    (∀ p ∈ existing, (modpackModNames index.files).contains p.1 = false →
      p.2.filename ∈
        (updateModsIntelligently fetch instName index existing disk0
          cleanupRes autoRes dbRes).preservedMods ∧
      (reconcileAll fetch existing index.files (initLoopState disk0)).disk.lookup p.2.filename
          = disk0.lookup p.2.filename ∧
      p.2.filename ∉ (reconcileAll fetch existing index.files (initLoopState disk0)).removedOld) ∧
    ((updateModsIntelligently fetch instName index existing disk0
        cleanupRes autoRes dbRes).success = true ↔
      (updateModsIntelligently fetch instName index existing disk0
        cleanupRes autoRes dbRes).errors = []) := by
  refine ⟨?_, ?_, ?_⟩
  · intro f hfmem em hfm hlk hfn
    have hkeyem : normalizeS em.filename = normalizeS (basenameOf f.path) :=
      (hwf _ (lookup_mem hlk)).symm
    have hfs : ∀ g ∈ index.files, ∀ k, modKeyOf g = some k →
        k ≠ normalizeS em.filename ∨
        (∃ em', existing.lookup k = some em' ∧ em'.filename = basenameOf g.path) := by
      intro g hg k hk
      by_cases hkk : k = normalizeS em.filename
      · subst hkk
        right
        have hkf : modKeyOf f = some (normalizeS (basenameOf f.path)) := by
          simp [modKeyOf, hfm]
        rw [← hkeyem] at hkf
        have hfg : f = g := filterMap_nodup_inj hnd hfmem hg hkf hk
        subst hfg
        exact ⟨em, by rw [hkeyem]; exact hlk, hfn⟩
      · exact Or.inl hkk
    have h := reconcile_slot fetch existing hwf em.filename index.files hfs
      (initLoopState disk0)
    refine ⟨h.1, ?_, ?_⟩
    · intro hr
      rcases h.2.1 _ hr with h' | h'
      · cases h'
      · exact h' rfl
    · intro hr
      rcases h.2.2 _ hr with h' | h'
      · cases h'
      · exact h' rfl
  · intro p hp hnk
    have hkey : p.1 = normalizeS p.2.filename := hwf p hp
    have hfs : ∀ g ∈ index.files, ∀ k, modKeyOf g = some k →
        k ≠ normalizeS p.2.filename ∨
        (∃ em', existing.lookup k = some em' ∧ em'.filename = basenameOf g.path) := by
      intro g hg k hk
      left
      intro hkk
      have hkmem : k ∈ modpackModNames index.files :=
        List.mem_filterMap.mpr ⟨g, hg, hk⟩
      rw [hkk, ← hkey] at hkmem
      have hno : p.1 ∉ modpackModNames index.files := by simpa using hnk
      exact hno hkmem
    have h := reconcile_slot fetch existing hwf p.2.filename index.files hfs
      (initLoopState disk0)
    refine ⟨?_, h.1, ?_⟩
    · unfold updateModsIntelligently
      exact List.mem_filterMap.mpr ⟨p, hp, by rw [hnk]; rfl⟩
    · intro hr
      rcases h.2.1 _ hr with h' | h'
      · cases h'
      · exact h' rfl
  · unfold updateModsIntelligently
    exact List.isEmpty_iff

/-- Witness for `update_engine_classification` on a concrete instance
(modpack sodium plus one user mod). -/
theorem update_engine_classification_witness :
    (updateModsIntelligently oneFetch "inst" sampleIndex sampleInventory sampleDisk
        (Except.ok ()) (Except.ok ()) (Except.ok ())).success = true ↔
      (updateModsIntelligently oneFetch "inst" sampleIndex sampleInventory sampleDisk
        (Except.ok ()) (Except.ok ()) (Except.ok ())).errors = [] :=
  (update_engine_classification oneFetch "inst" sampleIndex sampleInventory sampleDisk
    (Except.ok ()) (Except.ok ()) (Except.ok ()) (by decide) (by decide)).2.2

/-- C8 counterexample: `download_mod_file` is not the mirror-verify logic
of the installer.  With two mirrors of which only the second works, it
fails outright instead of trying the second mirror; and it accepts a
body whose SHA-1 does not match the file's expected `sha1`. -/
theorem download_mod_file_no_mirror_no_verify_cx :
    downloadModFile firstDownFetch twoMirrorFile = .error "HTTP error for mod download" ∧
    firstDownFetch "u2" = some [1] ∧
    downloadModFile constFetch twoMirrorFile = .ok [9] ∧
    constSha [9] ≠ "deadbeef" ∧
    twoMirrorFile.hashes.lookup "sha1" = some "deadbeef" := by
  refine ⟨rfl, rfl, rfl, by decide, rfl⟩

/-- C8 (amended): when the update engine replaces an outdated modpack mod
(same normalized key, different filename), it removes the old file and
downloads the new one with a single GET of the *first* URL in
`MrpackFile.downloads` — no fallback to later mirrors and no SHA-1
verification — recording the result in `updated_mods` as
`"old_name → new_name"`. -/
theorem update_replace_first_url_only :
    (∀ (fetch : String → Option ByteSeq) (f : MrpackFile) (u : String)
        (us : List String) (b : ByteSeq),
      f.downloads = u :: us → fetch u = some b → downloadModFile fetch f = .ok b) ∧
    (∀ (fetch : String → Option ByteSeq) (existing : List (String × ModInfo))
        (st : LoopState) (f : MrpackFile) (em : ModInfo) (b : ByteSeq),
      isModsPath f = true →
      existing.lookup (normalizeS (basenameOf f.path)) = some em →
      em.filename ≠ basenameOf f.path →
      downloadModFile fetch f = .ok b →
      processMrpackFile fetch existing st f =
        { st with
            disk := writeFile (basenameOf f.path) b (removeFile em.filename st.disk)
            updatedMods := st.updatedMods ++ [em.filename ++ " → " ++ basenameOf f.path]
            removedOld := st.removedOld ++ [em.filename] }) := by
  constructor
  · intro fetch f u us b hd hf
    unfold downloadModFile
    rw [hd]
    dsimp only
    rw [hf]
  · intro fetch existing st f em b hm hlk hne hdl
    unfold processMrpackFile
    rw [if_neg (by simpa using hm), hlk]
    dsimp only
    rw [if_neg hne, hdl]

/-- Witness for `update_replace_first_url_only`: replacing
`sodium-0.5.8.jar` by `sodium-0.5.9.jar` on the concrete sample
instance. -/
theorem update_replace_first_url_only_witness :
    downloadModFile oneFetch twoMirrorFile = .ok [1] ∧
    processMrpackFile oneFetch sampleInventory (initLoopState sampleDisk) sodium59File =
      { initLoopState sampleDisk with
          disk := writeFile (basenameOf sodium59File.path) [1]
            (removeFile oldSodiumInfo.filename (initLoopState sampleDisk).disk)
          updatedMods := (initLoopState sampleDisk).updatedMods ++
            [oldSodiumInfo.filename ++ " → " ++ basenameOf sodium59File.path]
          removedOld := (initLoopState sampleDisk).removedOld ++ [oldSodiumInfo.filename] } :=
  ⟨update_replace_first_url_only.1 oneFetch twoMirrorFile "u1" ["u2"] [1] rfl rfl,
   update_replace_first_url_only.2 oneFetch sampleInventory (initLoopState sampleDisk)
     sodium59File oldSodiumInfo [1] (by decide) (by decide) (by decide) rfl⟩

theorem mem_insertR {p : String × ModInfo} {k : String} {v : ModInfo} :
    ∀ {m : List (String × ModInfo)}, p ∈ insertR k v m → p = (k, v) ∨ p ∈ m := by
  intro m hp
  induction m with
  | nil =>
    rcases List.mem_cons.mp hp with h | h
    · exact Or.inl h
    · cases h
  | cons q rest ih =>
    rcases q with ⟨k', v'⟩
    unfold insertR at hp
    by_cases hk : k' = k
    · rw [if_pos hk] at hp
      rcases List.mem_cons.mp hp with h | h
      · exact Or.inl h
      · exact Or.inr (List.mem_cons.mpr (Or.inr h))
    · rw [if_neg hk] at hp
      rcases List.mem_cons.mp hp with h | h
      · exact Or.inr (List.mem_cons.mpr (Or.inl h))
      · rcases ih h with h' | h'
        · exact Or.inl h'
        · exact Or.inr (List.mem_cons.mpr (Or.inr h'))

theorem keys_insertR {x k : String} {v : ModInfo} :
    ∀ {m : List (String × ModInfo)},
      x ∈ (insertR k v m).map Prod.fst → x = k ∨ x ∈ m.map Prod.fst := by
  intro m hx
  rcases List.mem_map.mp hx with ⟨p, hp, hfst⟩
  rcases mem_insertR hp with h | h
  · subst h
    exact Or.inl hfst.symm
  · exact Or.inr (List.mem_map.mpr ⟨p, h, hfst⟩)

theorem nodup_keys_insertR {k : String} {v : ModInfo} :
    ∀ {m : List (String × ModInfo)},
      (m.map Prod.fst).Nodup → ((insertR k v m).map Prod.fst).Nodup := by
  intro m hnd
  induction m with
  | nil => simp [insertR]
  | cons q rest ih =>
    rcases q with ⟨k', v'⟩
    rw [List.map_cons, List.nodup_cons] at hnd
    unfold insertR
    by_cases hk : k' = k
    · rw [if_pos hk]
      rw [List.map_cons, List.nodup_cons]
      exact ⟨hk ▸ hnd.1, hnd.2⟩
    · rw [if_neg hk]
      rw [List.map_cons, List.nodup_cons]
      refine ⟨?_, ih hnd.2⟩
      intro hx
      rcases keys_insertR hx with h | h
      · exact hk h
      · exact hnd.1 h

theorem analyze_keys_nodup (entries : List DirEntry) :
    ((analyzeExistingMods entries).map Prod.fst).Nodup := by
  unfold analyzeExistingMods
  suffices h : ∀ (es : List DirEntry) (m : List (String × ModInfo)),
      (m.map Prod.fst).Nodup →
      ((es.foldl (fun m e =>
        if isJarName e.filename then insertR (normalizeS e.filename) (modInfoOf e) m
        else m) m).map Prod.fst).Nodup by
    exact h entries [] (by simp)
  intro es
  induction es with
  | nil => intro m hm; exact hm
  | cons e rest ih =>
    intro m hm
    rw [List.foldl_cons]
    by_cases hj : isJarName e.filename
    · rw [if_pos hj]
      exact ih _ (nodup_keys_insertR hm)
    · rw [if_neg hj]
      exact ih _ hm

theorem analyze_mem (entries : List DirEntry) :
    ∀ p ∈ analyzeExistingMods entries,
      ∃ e ∈ entries, isJarName e.filename = true ∧ p = (normalizeS e.filename, modInfoOf e) := by
  unfold analyzeExistingMods
  suffices h : ∀ (es : List DirEntry) (m : List (String × ModInfo)) (p : String × ModInfo),
      p ∈ es.foldl (fun m e =>
        if isJarName e.filename then insertR (normalizeS e.filename) (modInfoOf e) m
        else m) m →
      p ∈ m ∨ ∃ e ∈ es, isJarName e.filename = true ∧
        p = (normalizeS e.filename, modInfoOf e) by
    intro p hp
    rcases h entries [] p hp with h' | h'
    · cases h'
    · exact h'
  intro es
  induction es with
  | nil => intro m p hp; exact Or.inl hp
  | cons e rest ih =>
    intro m p hp
    rw [List.foldl_cons] at hp
    by_cases hj : isJarName e.filename
    · rw [if_pos hj] at hp
      rcases ih _ p hp with h' | ⟨e', he', hj', hpe⟩
      · rcases mem_insertR h' with h'' | h''
        · exact Or.inr ⟨e, List.mem_cons.mpr (Or.inl rfl), hj, h''⟩
        · exact Or.inl h''
      · exact Or.inr ⟨e', List.mem_cons.mpr (Or.inr he'), hj', hpe⟩
    · rw [if_neg hj] at hp
      rcases ih _ p hp with h' | ⟨e', he', hj', hpe⟩
      · exact Or.inl h'
      · exact Or.inr ⟨e', List.mem_cons.mpr (Or.inr he'), hj', hpe⟩

theorem eq_of_nodup_keys {k : String} {a b : ModInfo} {l : List (String × ModInfo)}
    (hnd : (l.map Prod.fst).Nodup) (ha : (k, a) ∈ l) (hb : (k, b) ∈ l) : a = b := by
  have h1 := lookup_of_mem_nodup hnd ha
  have h2 := lookup_of_mem_nodup hnd hb
  rw [h1] at h2
  exact Option.some.inj h2

theorem processFile_removed_sub (fetch : String → Option ByteSeq)
    (existing : List (String × ModInfo)) (st : LoopState) (f : MrpackFile) :
    ∀ r ∈ (processMrpackFile fetch existing st f).removedOld,
      r ∈ st.removedOld ∨ ∃ k em, existing.lookup k = some em ∧ r = em.filename := by
  intro r hr
  unfold processMrpackFile at hr
  by_cases hm : isModsPath f
  case neg =>
    rw [if_pos hm] at hr
    exact Or.inl hr
  case pos =>
    rw [if_neg (by simpa using hm)] at hr
    rcases hl : existing.lookup (normalizeS (basenameOf f.path)) with _ | em
    · rw [hl] at hr
      dsimp only at hr
      rcases hdl : downloadModFile fetch f with e | b <;> rw [hdl] at hr <;>
        exact Or.inl hr
    · rw [hl] at hr
      dsimp only at hr
      by_cases heq : em.filename = basenameOf f.path
      · rw [if_pos heq] at hr
        exact Or.inl hr
      · rw [if_neg heq] at hr
        rcases hdl : downloadModFile fetch f with e | b <;> rw [hdl] at hr <;>
          dsimp only at hr <;>
          rcases List.mem_append.mp hr with hr' | hr'
        · exact Or.inl hr'
        · rcases List.mem_cons.mp hr' with rfl | hr''
          · exact Or.inr ⟨_, em, hl, rfl⟩
          · cases hr''
        · exact Or.inl hr'
        · rcases List.mem_cons.mp hr' with rfl | hr''
          · exact Or.inr ⟨_, em, hl, rfl⟩
          · cases hr''

theorem reconcile_removed_sub (fetch : String → Option ByteSeq)
    (existing : List (String × ModInfo)) :
    ∀ (fs : List MrpackFile) (st : LoopState),
      ∀ r ∈ (reconcileAll fetch existing fs st).removedOld,
        r ∈ st.removedOld ∨ ∃ k em, existing.lookup k = some em ∧ r = em.filename := by
  intro fs
  induction fs with
  | nil => intro st r hr; exact Or.inl hr
  | cons f rest ih =>
    intro st r hr
    have hre : reconcileAll fetch existing (f :: rest) st =
        reconcileAll fetch existing rest (processMrpackFile fetch existing st f) := rfl
    rw [hre] at hr
    rcases ih _ r hr with h | h
    · exact processFile_removed_sub fetch existing st f r h
    · exact Or.inr h

/-- C10: the inventory built by `analyze_existing_mods_simple` is keyed
by normalized name: its keys are duplicate-free, every entry records a
`.jar` filename from the directory under its own normalized key, two
same-key `.jar` files never both appear in it, and both the
`preserved_mods` list and the reconciliation loop's removals draw their
filenames only from the inventory — so at most one filename per
normalized key is visible to reconciliation. -/
theorem inventory_one_per_key (entries : List DirEntry) :
    ((analyzeExistingMods entries).map Prod.fst).Nodup ∧
    (∀ p ∈ analyzeExistingMods entries,
      p.1 = normalizeS p.2.filename ∧
      p.2.filename ∈ entries.filterMap
        (fun e => if isJarName e.filename then some e.filename else none)) ∧
    (∀ e1 ∈ entries, ∀ e2 ∈ entries,
      isJarName e1.filename = true → isJarName e2.filename = true →
      normalizeS e1.filename = normalizeS e2.filename →
      e1.filename ≠ e2.filename →
      ¬(e1.filename ∈ inventoryFilenames entries ∧
        e2.filename ∈ inventoryFilenames entries)) ∧
    (∀ (fetch : String → Option ByteSeq) (instName : String) (index : MrpackIndex)
        (disk0 : ModsDir) (cleanupRes autoRes dbRes : Except String Unit),
      (∀ s ∈ (updateModsIntelligently fetch instName index (analyzeExistingMods entries)
          disk0 cleanupRes autoRes dbRes).preservedMods, s ∈ inventoryFilenames entries) ∧
      (∀ s ∈ (reconcileAll fetch (analyzeExistingMods entries) index.files
          (initLoopState disk0)).removedOld, s ∈ inventoryFilenames entries)) := by
  refine ⟨analyze_keys_nodup entries, ?_, ?_, ?_⟩
  · intro p hp
    rcases analyze_mem entries p hp with ⟨e, he, hj, hpe⟩
    subst hpe
    exact ⟨rfl, List.mem_filterMap.mpr ⟨e, he, by rw [hj]; rfl⟩⟩
  · intro e1 he1 e2 he2 hj1 hj2 hkk hfn ⟨hm1, hm2⟩
    rcases List.mem_map.mp hm1 with ⟨p1, hp1, hf1⟩
    rcases List.mem_map.mp hm2 with ⟨p2, hp2, hf2⟩
    rcases analyze_mem entries p1 hp1 with ⟨d1, _, _, hpe1⟩
    rcases analyze_mem entries p2 hp2 with ⟨d2, _, _, hpe2⟩
    have hk1 : p1.1 = normalizeS e1.filename := by
      rw [hpe1] at hf1 ⊢
      simp only [modInfoOf] at hf1 ⊢
      rw [hf1]
    have hk2 : p2.1 = normalizeS e2.filename := by
      rw [hpe2] at hf2 ⊢
      simp only [modInfoOf] at hf2 ⊢
      rw [hf2]
    have hkeq : p1.1 = p2.1 := by rw [hk1, hk2, hkk]
    have hv : p1.2 = p2.2 := by
      have hmem1 : (p1.1, p1.2) ∈ analyzeExistingMods entries := hp1
      have hmem2 : (p1.1, p2.2) ∈ analyzeExistingMods entries := by
        rw [hkeq]
        exact hp2
      exact eq_of_nodup_keys (analyze_keys_nodup entries) hmem1 hmem2
    apply hfn
    rw [← hf1, ← hf2, hv]
  · intro fetch instName index disk0 cleanupRes autoRes dbRes
    constructor
    · intro s hs
      unfold updateModsIntelligently at hs
      rcases List.mem_filterMap.mp hs with ⟨p, hp, hps⟩
      have : s = p.2.filename := by
        by_cases hc : (modpackModNames index.files).contains p.1
        · rw [if_pos hc] at hps; cases hps
        · rw [if_neg hc] at hps; exact (Option.some.inj hps).symm
      subst this
      exact List.mem_map.mpr ⟨p, hp, rfl⟩
    · intro s hs
      rcases reconcile_removed_sub fetch (analyzeExistingMods entries) index.files
        (initLoopState disk0) s hs with h | ⟨k, em, hlk, hse⟩
      · cases h
      · subst hse
        exact List.mem_map.mpr ⟨(k, em), lookup_mem hlk, rfl⟩

/-- Witness for `inventory_one_per_key`: with two sodium builds on disk,
at most one of them is visible in the inventory. -/
theorem inventory_one_per_key_witness :
    ¬("sodium-0.5.8.jar" ∈ inventoryFilenames dupEntries ∧
      "sodium-0.5.9.jar" ∈ inventoryFilenames dupEntries) :=
  (inventory_one_per_key dupEntries).2.2.1
    { filename := "sodium-0.5.8.jar", size := 10, mtime := 1 } (by decide)
    { filename := "sodium-0.5.9.jar", size := 11, mtime := 2 } (by decide)
    (by decide) (by decide) (by decide) (by decide)

theorem insertByMtime_perm (x : DirEntry) (l : List DirEntry) :
    (insertByMtime x l).Perm (x :: l) := by
  induction l with
  | nil => exact List.Perm.refl _
  | cons y ys ih =>
    unfold insertByMtime
    by_cases h : x.mtime ≥ y.mtime
    · rw [if_pos h]
    · rw [if_neg h]
      exact (ih.cons y).trans (List.Perm.swap x y ys)

theorem sortByMtimeDesc_perm (l : List DirEntry) : (sortByMtimeDesc l).Perm l := by
  induction l with
  | nil => exact List.Perm.refl _
  | cons x xs ih =>
    exact (insertByMtime_perm x (sortByMtimeDesc xs)).trans (ih.cons x)

theorem mem_sortByMtimeDesc {a : DirEntry} {l : List DirEntry} :
    a ∈ sortByMtimeDesc l ↔ a ∈ l :=
  (sortByMtimeDesc_perm l).mem_iff

theorem sort_head_ge :
    ∀ {l t : DirEntry} {ls rest : List DirEntry}, sortByMtimeDesc (l :: ls) = t :: rest →
      ∀ a ∈ l :: ls, a.mtime ≤ t.mtime := by
  intro l t ls
  induction ls generalizing l t with
  | nil =>
    intro rest h a ha
    have : sortByMtimeDesc [l] = [l] := rfl
    rw [this] at h
    injection h with h1 _
    subst h1
    rcases List.mem_cons.mp ha with rfl | ha'
    · exact Nat.le_refl _
    · cases ha'
  | cons y ys ih =>
    intro rest h a ha
    have hsl : sortByMtimeDesc (l :: y :: ys) =
        insertByMtime l (sortByMtimeDesc (y :: ys)) := rfl
    rcases hs : sortByMtimeDesc (y :: ys) with _ | ⟨u, us⟩
    · exact absurd (congrArg List.length hs)
        (by
          have := (sortByMtimeDesc_perm (y :: ys)).length_eq
          simp [this])
    · rw [hsl, hs] at h
      unfold insertByMtime at h
      by_cases hlu : l.mtime ≥ u.mtime
      · rw [if_pos hlu] at h
        injection h with h1 _
        subst h1
        rcases List.mem_cons.mp ha with rfl | ha'
        · exact Nat.le_refl _
        · exact Nat.le_trans (ih hs a ha') hlu
      · rw [if_neg hlu] at h
        injection h with h1 _
        subst h1
        rcases List.mem_cons.mp ha with rfl | ha'
        · exact Nat.le_of_lt (Nat.lt_of_not_le hlu)
        · exact ih hs a ha'

theorem two_le_length_of_mem {a b : DirEntry} :
    ∀ {l : List DirEntry}, a ∈ l → b ∈ l → a ≠ b → 2 ≤ l.length := by
  intro l ha hb hne
  induction l with
  | nil => cases ha
  | cons x xs ih =>
    rcases List.mem_cons.mp ha with rfl | ha'
    · rcases List.mem_cons.mp hb with rfl | hb'
      · exact absurd rfl hne
      · have : 1 ≤ xs.length := List.length_pos.mpr (List.ne_nil_of_mem hb')
        simpa using Nat.succ_le_succ this
    · have : 1 ≤ xs.length := List.length_pos.mpr (List.ne_nil_of_mem ha')
      simpa using Nat.succ_le_succ this

theorem lookup_addToGroups_same (k : String) (e : DirEntry) :
    ∀ gs : List (String × List DirEntry),
      (addToGroups k e gs).lookup k = some (((gs.lookup k).getD []) ++ [e]) := by
  intro gs
  induction gs with
  | nil =>
    unfold addToGroups
    rw [List.lookup_cons, beq_self_eq_true]
    rfl
  | cons q rest ih =>
    rcases q with ⟨k', g⟩
    unfold addToGroups
    by_cases hk : k' = k
    · subst hk
      rw [if_pos rfl, List.lookup_cons, beq_self_eq_true, List.lookup_cons,
        beq_self_eq_true]
      rfl
    · rw [if_neg hk, List.lookup_cons, List.lookup_cons,
        beq_eq_false_iff_ne.mpr (fun he => hk he.symm)]
      exact ih

theorem lookup_addToGroups_ne {k' k : String} (hk : k' ≠ k) (e : DirEntry) :
    ∀ gs : List (String × List DirEntry),
      (addToGroups k e gs).lookup k' = gs.lookup k' := by
  intro gs
  induction gs with
  | nil =>
    unfold addToGroups
    rw [List.lookup_cons, beq_eq_false_iff_ne.mpr hk]
  | cons q rest ih =>
    rcases q with ⟨k'', g⟩
    unfold addToGroups
    by_cases hk2 : k'' = k
    · subst hk2
      rw [if_pos rfl, List.lookup_cons, List.lookup_cons,
        beq_eq_false_iff_ne.mpr hk]
    · rw [if_neg hk2, List.lookup_cons, List.lookup_cons]
      by_cases hk3 : k' = k''
      · rw [beq_iff_eq.mpr hk3]
      · rw [beq_eq_false_iff_ne.mpr hk3]
        exact ih

theorem keys_addToGroups {x k : String} {e : DirEntry} :
    ∀ {gs : List (String × List DirEntry)},
      x ∈ (addToGroups k e gs).map Prod.fst → x = k ∨ x ∈ gs.map Prod.fst := by
  intro gs hx
  induction gs with
  | nil =>
    unfold addToGroups at hx
    rcases List.mem_cons.mp hx with h | h
    · exact Or.inl h
    · cases h
  | cons q rest ih =>
    rcases q with ⟨k', g⟩
    unfold addToGroups at hx
    by_cases hk : k' = k
    · rw [if_pos hk] at hx
      rcases List.mem_cons.mp hx with h | h
      · exact Or.inr (List.mem_cons.mpr (Or.inl h))
      · exact Or.inr (List.mem_cons.mpr (Or.inr h))
    · rw [if_neg hk] at hx
      rcases List.mem_cons.mp hx with h | h
      · exact Or.inr (List.mem_cons.mpr (Or.inl h))
      · rcases ih h with h' | h'
        · exact Or.inl h'
        · exact Or.inr (List.mem_cons.mpr (Or.inr h'))

theorem nodup_keys_addToGroups {k : String} {e : DirEntry} :
    ∀ {gs : List (String × List DirEntry)},
      (gs.map Prod.fst).Nodup → ((addToGroups k e gs).map Prod.fst).Nodup := by
  intro gs hnd
  induction gs with
  | nil => simp [addToGroups]
  | cons q rest ih =>
    rcases q with ⟨k', g⟩
    rw [List.map_cons, List.nodup_cons] at hnd
    unfold addToGroups
    by_cases hk : k' = k
    · rw [if_pos hk, List.map_cons, List.nodup_cons]
      exact ⟨hnd.1, hnd.2⟩
    · rw [if_neg hk, List.map_cons, List.nodup_cons]
      refine ⟨?_, ih hnd.2⟩
      intro hx
      rcases keys_addToGroups hx with h | h
      · exact hk h
      · exact hnd.1 h

theorem modGroups_keys_nodup (entries : List DirEntry) :
    ((modGroups entries).map Prod.fst).Nodup := by
  unfold modGroups
  suffices h : ∀ (es : List DirEntry) (gs : List (String × List DirEntry)),
      (gs.map Prod.fst).Nodup →
      ((es.foldl (fun gs e =>
        if isJarName e.filename then addToGroups (normalizeS e.filename) e gs else gs)
        gs).map Prod.fst).Nodup by
    exact h entries [] (by simp)
  intro es
  induction es with
  | nil => intro gs h; exact h
  | cons e rest ih =>
    intro gs h
    rw [List.foldl_cons]
    by_cases hj : isJarName e.filename
    · rw [if_pos hj]
      exact ih _ (nodup_keys_addToGroups h)
    · rw [if_neg hj]
      exact ih _ h

theorem foldGroups_lookup (k : String) :
    ∀ (es : List DirEntry) (gs : List (String × List DirEntry)),
      (es.foldl (fun gs e =>
        if isJarName e.filename then addToGroups (normalizeS e.filename) e gs else gs)
        gs).lookup k =
      (match gs.lookup k with
       | some g => some (g ++ es.filter (fun e => jarKeyOf e == some k))
       | none =>
         if es.filter (fun e => jarKeyOf e == some k) = [] then none
         else some (es.filter (fun e => jarKeyOf e == some k))) := by
  intro es
  induction es with
  | nil =>
    intro gs
    show gs.lookup k = _
    rcases gs.lookup k with _ | g
    · simp
    · simp
  | cons e rest ih =>
    intro gs
    rw [List.foldl_cons]
    by_cases hj : isJarName e.filename
    · rw [if_pos hj]
      by_cases hk : normalizeS e.filename = k
      · subst hk
        have hkey : jarKeyOf e = some (normalizeS e.filename) := by
          unfold jarKeyOf
          rw [if_pos hj]
        have hfil : (e :: rest).filter (fun d => jarKeyOf d == some (normalizeS e.filename)) =
            e :: rest.filter (fun d => jarKeyOf d == some (normalizeS e.filename)) := by
          rw [List.filter_cons, if_pos (by simp [hkey])]
        rw [ih, lookup_addToGroups_same, hfil]
        rcases gs.lookup (normalizeS e.filename) with _ | g
        · simp
        · simp
      · have hkey : (jarKeyOf e == some k) = false := by
          unfold jarKeyOf
          rw [if_pos hj]
          simpa using hk
        have hfil : (e :: rest).filter (fun d => jarKeyOf d == some k) =
            rest.filter (fun d => jarKeyOf d == some k) := by
          rw [List.filter_cons, hkey]
          rfl
        rw [ih, lookup_addToGroups_ne (fun he => hk he.symm), hfil]
    · rw [if_neg hj]
      have hkey : (jarKeyOf e == some k) = false := by
        unfold jarKeyOf
        rw [if_neg hj]
        rfl
      have hfil : (e :: rest).filter (fun d => jarKeyOf d == some k) =
          rest.filter (fun d => jarKeyOf d == some k) := by
        rw [List.filter_cons, hkey]
        rfl
      rw [ih, hfil]

theorem lookup_modGroups (entries : List DirEntry) (k : String) :
    (modGroups entries).lookup k =
      (if groupOf entries k = [] then none else some (groupOf entries k)) := by
  unfold modGroups groupOf
  rw [foldGroups_lookup]
  rfl

theorem jarKeyOf_of_mem_groupOf {entries : List DirEntry} {k : String} {e : DirEntry}
    (h : e ∈ groupOf entries k) : e ∈ entries ∧ jarKeyOf e = some k := by
  unfold groupOf at h
  have h' := List.mem_filter.mp h
  exact ⟨h'.1, by simpa using h'.2⟩

theorem mem_groupOf_self {entries : List DirEntry} {k : String} {e : DirEntry}
    (he : e ∈ entries) (hk : jarKeyOf e = some k) : e ∈ groupOf entries k := by
  unfold groupOf
  exact List.mem_filter.mpr ⟨he, by simp [hk]⟩

theorem mem_deletedDuplicates (entries : List DirEntry) (e : DirEntry) :
    e ∈ deletedDuplicates entries ↔
      ∃ k, jarKeyOf e = some k ∧ (groupOf entries k).length > 1 ∧
        e ∈ (sortByMtimeDesc (groupOf entries k)).tail := by
  unfold deletedDuplicates
  rw [List.mem_flatten]
  constructor
  · rintro ⟨l, hl, hel⟩
    rcases List.mem_map.mp hl with ⟨⟨k, g⟩, hkg, hfl⟩
    by_cases hlen : g.length > 1
    case neg =>
      rw [← hfl, if_neg hlen] at hel
      cases hel
    case pos =>
      rw [← hfl, if_pos hlen] at hel
      have hlk := lookup_of_mem_nodup (modGroups_keys_nodup entries) hkg
      rw [lookup_modGroups] at hlk
      by_cases hge : groupOf entries k = []
      · rw [if_pos hge] at hlk
        cases hlk
      · rw [if_neg hge] at hlk
        have hgg : groupOf entries k = g := Option.some.inj hlk
        have hesort : e ∈ sortByMtimeDesc g := List.mem_of_mem_tail hel
        have heg : e ∈ g := mem_sortByMtimeDesc.mp hesort
        have hjk : jarKeyOf e = some k := (jarKeyOf_of_mem_groupOf (hgg ▸ heg)).2
        exact ⟨k, hjk, by rw [hgg]; exact hlen, by rw [hgg]; exact hel⟩
  · rintro ⟨k, hjk, hlen, htl⟩
    refine ⟨(sortByMtimeDesc (groupOf entries k)).tail,
      List.mem_map.mpr ⟨(k, groupOf entries k), ?_, by rw [if_pos hlen]⟩, htl⟩
    apply lookup_mem
    rw [lookup_modGroups,
      if_neg (by intro h; rw [h] at hlen; cases hlen)]

theorem mem_cleanupSurvivors {entries : List DirEntry} {e : DirEntry} :
    e ∈ cleanupSurvivors entries ↔ e ∈ entries ∧ e ∉ deletedDuplicates entries := by
  unfold cleanupSurvivors
  rw [List.mem_filter]
  constructor
  · rintro ⟨h1, h2⟩
    exact ⟨h1, by simpa using h2⟩
  · rintro ⟨h1, h2⟩
    exact ⟨h1, by simpa using h2⟩

theorem sortByMtimeDesc_ne_nil {g : List DirEntry} (h : g ≠ []) :
    sortByMtimeDesc g ≠ [] := by
  intro hs
  have := (sortByMtimeDesc_perm g).length_eq
  rw [hs] at this
  exact h (List.length_eq_zero.mp this.symm)

/-- With its group larger than one, a `.jar` entry survives the sweep
exactly when it is the head of the stable descending sort of its
group. -/
theorem survives_iff_head {entries : List DirEntry} {e : DirEntry} {k : String}
    (hnd : entries.Nodup) (he : e ∈ entries) (hjk : jarKeyOf e = some k)
    (hlen : (groupOf entries k).length > 1) :
    e ∈ cleanupSurvivors entries ↔
      ∃ rest, sortByMtimeDesc (groupOf entries k) = e :: rest := by
  have hgnd : (groupOf entries k).Nodup := List.Nodup.filter _ hnd
  have hsnd : (sortByMtimeDesc (groupOf entries k)).Nodup :=
    (sortByMtimeDesc_perm (groupOf entries k)).nodup_iff.mpr hgnd
  have hgne : groupOf entries k ≠ [] := by
    intro h
    rw [h] at hlen
    cases hlen
  rcases hs : sortByMtimeDesc (groupOf entries k) with _ | ⟨t, rest⟩
  · exact absurd hs (sortByMtimeDesc_ne_nil hgne)
  · have heg : e ∈ groupOf entries k := mem_groupOf_self he hjk
    have hes : e ∈ t :: rest := by
      rw [← hs]
      exact mem_sortByMtimeDesc.mpr heg
    rw [hs] at hsnd
    rw [List.nodup_cons] at hsnd
    rw [mem_cleanupSurvivors]
    constructor
    · rintro ⟨_, hnotdel⟩
      rcases List.mem_cons.mp hes with rfl | hetail
      · exact ⟨rest, rfl⟩
      · exfalso
        apply hnotdel
        rw [mem_deletedDuplicates]
        exact ⟨k, hjk, hlen, by rw [hs]; exact hetail⟩
    · rintro ⟨rest', hrest⟩
      injection hrest with h1 h2
      subst h1
      refine ⟨he, ?_⟩
      intro hdel
      rw [mem_deletedDuplicates] at hdel
      rcases hdel with ⟨k', hjk', hlen', htl'⟩
      have hkk : k' = k := by
        rw [hjk] at hjk'
        exact (Option.some.inj hjk').symm
      subst hkk
      rw [hs] at htl'
      exact hsnd.1 htl'

/-- C9: after the dedup sweep of `cleanup_duplicate_mods`, no two
surviving `.jar` files share a normalized key; and within every
same-key group of size greater than one (with pairwise distinct
modification times, and distinct filenames in the directory) exactly the
file with the most recent modification time survives — every other
group member is deleted. -/
theorem cleanup_dedup_keeps_newest (entries : List DirEntry)
    (hnd : (entries.map DirEntry.filename).Nodup)
    (hmt : ∀ e1 ∈ entries, ∀ e2 ∈ entries, e1 ≠ e2 →
      jarKeyOf e1 = jarKeyOf e2 → jarKeyOf e1 ≠ none → e1.mtime ≠ e2.mtime) :
    (∀ e1 ∈ cleanupSurvivors entries, ∀ e2 ∈ cleanupSurvivors entries,
      isJarName e1.filename = true → isJarName e2.filename = true →
      normalizeS e1.filename = normalizeS e2.filename → e1 = e2) ∧
    (∀ e ∈ entries, ∀ k, jarKeyOf e = some k → (groupOf entries k).length > 1 →
      (e ∈ cleanupSurvivors entries ↔
        ∀ e' ∈ groupOf entries k, e' ≠ e → e'.mtime < e.mtime)) := by
  have hndE : entries.Nodup := List.Nodup.of_map _ hnd
  constructor
  · intro e1 hs1 e2 hs2 hj1 hj2 hkk
    have he1 : e1 ∈ entries := (mem_cleanupSurvivors.mp hs1).1
    have he2 : e2 ∈ entries := (mem_cleanupSurvivors.mp hs2).1
    have hjk1 : jarKeyOf e1 = some (normalizeS e1.filename) := by
      unfold jarKeyOf
      rw [if_pos hj1]
    have hjk2 : jarKeyOf e2 = some (normalizeS e1.filename) := by
      unfold jarKeyOf
      rw [if_pos hj2, hkk]
    set k := normalizeS e1.filename with hkdef
    have hg1 : e1 ∈ groupOf entries k := mem_groupOf_self he1 hjk1
    have hg2 : e2 ∈ groupOf entries k := mem_groupOf_self he2 hjk2
    by_cases hne : e1 = e2
    · exact hne
    · exfalso
      have hlen : (groupOf entries k).length > 1 :=
        two_le_length_of_mem hg1 hg2 hne
      rcases (survives_iff_head hndE he1 hjk1 hlen).mp hs1 with ⟨r1, hr1⟩
      rcases (survives_iff_head hndE he2 hjk2 hlen).mp hs2 with ⟨r2, hr2⟩
      rw [hr1] at hr2
      injection hr2 with h1 _
      exact hne h1
  · intro e he k hjk hlen
    rw [survives_iff_head hndE he hjk hlen]
    have hgne : groupOf entries k ≠ [] := by
      intro h
      rw [h] at hlen
      cases hlen
    rcases hs : sortByMtimeDesc (groupOf entries k) with _ | ⟨t, rest⟩
    · exact absurd hs (sortByMtimeDesc_ne_nil hgne)
    · have htg : t ∈ groupOf entries k := by
        have : t ∈ sortByMtimeDesc (groupOf entries k) := by
          rw [hs]
          exact List.mem_cons.mpr (Or.inl rfl)
        exact mem_sortByMtimeDesc.mp this
      have hge : ∀ a ∈ groupOf entries k, a.mtime ≤ t.mtime := by
        rcases hg : groupOf entries k with _ | ⟨g0, gs⟩
        · exact absurd hg hgne
        · intro a ha
          rw [hg] at hs
          exact sort_head_ge hs a (hg ▸ ha)
      constructor
      · rintro ⟨rest', hrest⟩
        injection hrest with h1 _
        intro e' he' hne
        have hle : e'.mtime ≤ e.mtime := by
          rw [← h1]
          exact hge e' he'
        have hmem' := jarKeyOf_of_mem_groupOf he'
        have hne2 : e'.mtime ≠ e.mtime := by
          apply hmt e' hmem'.1 e he hne
          · rw [hmem'.2, hjk]
          · rw [hmem'.2]
            intro h
            cases h
        exact Nat.lt_of_le_of_ne hle hne2
      · intro hmax
        by_cases hte : t = e
        · exact ⟨rest, by rw [hte]⟩
        · exfalso
          have h1 : t.mtime < e.mtime := hmax t htg hte
          have h2 : e.mtime ≤ t.mtime := hge e (mem_groupOf_self he hjk)
          exact Nat.lt_irrefl _ (Nat.lt_of_le_of_lt h2 h1)

/-- Witness for `cleanup_dedup_keeps_newest`: of the two sodium builds in
`dupEntries`, the newer `sodium-0.5.9.jar` survives exactly because it
has the larger mtime. -/
theorem cleanup_dedup_keeps_newest_witness :
    { filename := "sodium-0.5.9.jar", size := 11, mtime := 2 : DirEntry } ∈
        cleanupSurvivors dupEntries ↔
      ∀ e' ∈ groupOf dupEntries "sodium",
        e' ≠ { filename := "sodium-0.5.9.jar", size := 11, mtime := 2 : DirEntry } →
        e'.mtime < 2 :=
  (cleanup_dedup_keeps_newest dupEntries (by decide) (by decide)).2
    { filename := "sodium-0.5.9.jar", size := 11, mtime := 2 } (by decide)
    "sodium" (by decide) (by decide)

end MCI
